import Mathlib

/-!
# Histogram equalization in grayscale: a verification development for `Project1/main.c`

The program keeps one RGBA32 surface and one 256-bucket histogram as process-wide state and
offers four pixel-level operations on it: `greyImageArithmeticAverage`, `greyImageWeightedSum`,
`imageHistogram` and `histogramEqualization`, with `checkGrayScale` as the shared precondition
test.  This file embeds those five functions and proves properties about them.

## Modelling decisions

* A pixel is the four channel values that `SDL_GetRGBA` returns and `SDL_MapRGBA` packs
  (for the RGBA32 format the two are inverse to each other); a channel is a `Nat`, and
  well-formedness says it is below 256.  Every store into a `Uint8` is written `% 256`.
* `surface` is `Option Surface` (`none` is the null pointer).  `pixelCount = w * h`; every loop
  over the pixels runs over the indices `0 .. pixelCount - 1`, exactly as in the source.
* `int` values (bucket counts, `soma`, `M * N`) are unbounded here; well-formedness of a
  surface bounds `w * h` below `2 ^ 31`, where no `int` of the source can overflow.
* `double` values are `Dbl`: a rational, an infinity or NaN.  Every floating-point operation
  computes the exact rational result and then applies the rounding function of the
  floating-point environment `FpEnv`.  Two environments are used: `FpEnv.exact`, which does
  not round at all (exact arithmetic), and `FpEnv.ieee`, IEEE-754 binary64 with
  round-to-nearest-even, which is what `double` is on the platforms the program targets
  (each operation rounded once, no fused multiply-add, no extended precision).  Signed zeros
  are not distinguished.  Statements about the transform table are made in both
  environments.
* Converting a NaN, an infinity or an out-of-range value to an integer type is undefined in C;
  the integer the platform produces in that case is the field `undefConv` of the
  environment, and theorems hold for every value of it.
* The texture, the window and the renderer are display plumbing and are not modelled; what a
  function logs is recorded as its `Outcome`.
-/

namespace HistEq

/-! ## `double` -/

/-- A `double`: a finite value (kept as the rational it denotes), an infinity (`neg = true` for
the negative one) or NaN. -/
inductive Dbl where
  | fin (q : ℚ)
  | inf (neg : Bool)
  | nan
  deriving DecidableEq

instance : Inhabited Dbl := ⟨Dbl.fin 0⟩

/-- The floating-point environment: how an exact result is rounded to a `double`, and which
integer an undefined floating-to-integer conversion yields. -/
structure FpEnv where
  rnd : ℚ → Dbl
  undefConv : ℤ

/-- Round to the nearest integer, ties to the even one. -/
def roundHalfEven (y : ℚ) : ℤ :=
  if y - ⌊y⌋ < 1 / 2 then ⌊y⌋
  else if 1 / 2 < y - ⌊y⌋ then ⌊y⌋ + 1
  else if ⌊y⌋ % 2 = 0 then ⌊y⌋ else ⌊y⌋ + 1

/-- IEEE-754 binary64 rounding of an exact value, round-to-nearest-even: 53 significant bits,
gradual underflow below `2 ^ (-1022)`, overflow to an infinity from `2 ^ 1024` on. -/
def binary64 (x : ℚ) : Dbl :=
  if x = 0 then Dbl.fin 0
  else
    let e : ℤ := max (Int.log 2 |x|) (-1022)
    let ulp : ℚ := 2 ^ (e - 52)
    let y : ℚ := roundHalfEven (x / ulp) * ulp
    if 2 ^ 1024 ≤ |y| then Dbl.inf (decide (x < 0)) else Dbl.fin y

/-- Exact arithmetic: no rounding. -/
def FpEnv.exact (u : ℤ) : FpEnv := ⟨Dbl.fin, u⟩

/-- IEEE-754 binary64 arithmetic. -/
def FpEnv.ieee (u : ℤ) : FpEnv := ⟨binary64, u⟩

namespace Dbl

/-- Conversion of an integer to `double`. -/
def ofInt (fp : FpEnv) (i : ℤ) : Dbl := fp.rnd i

/-- A decimal floating constant of the source text. -/
def lit (fp : FpEnv) (q : ℚ) : Dbl := fp.rnd q

/-- Unary minus. -/
def neg : Dbl → Dbl
  | fin q => fin (-q)
  | inf s => inf (!s)
  | nan => nan

/-- The `+` of two doubles. -/
def add (fp : FpEnv) : Dbl → Dbl → Dbl
  | fin a, fin b => fp.rnd (a + b)
  | fin _, inf s => inf s
  | inf s, fin _ => inf s
  | inf s, inf t => if s = t then inf s else nan
  | _, _ => nan

/-- The `-` of two doubles. -/
def sub (fp : FpEnv) (a b : Dbl) : Dbl := add fp a (neg b)

/-- The `*` of two doubles. -/
def mul (fp : FpEnv) : Dbl → Dbl → Dbl
  | fin a, fin b => fp.rnd (a * b)
  | fin a, inf s => if a = 0 then nan else inf (s != decide (a < 0))
  | inf s, fin b => if b = 0 then nan else inf (s != decide (b < 0))
  | inf s, inf t => inf (s != t)
  | _, _ => nan

/-- The `/` of two doubles: `0 / 0` is NaN, a non-zero value over zero is an infinity. -/
def div (fp : FpEnv) : Dbl → Dbl → Dbl
  | fin a, fin b =>
      if b = 0 then (if a = 0 then nan else inf (decide (a < 0))) else fp.rnd (a / b)
  | fin _, inf _ => fin 0
  | inf s, fin b => inf (s != decide (b < 0))
  | _, _ => nan

/-- The comparison `a > b`; false as soon as one side is NaN. -/
def gt : Dbl → Dbl → Bool
  | fin a, fin b => decide (b < a)
  | fin _, inf s => s
  | inf s, fin _ => !s
  | inf s, inf t => !s && t
  | _, _ => false

/-- Truncation toward zero of a rational. -/
def truncQ (q : ℚ) : ℤ := Int.tdiv q.num q.den

/-- Conversion of a double to an integer type with range `lo .. hi`: the value truncated toward
zero when that fits, the platform's `undefConv` otherwise. -/
def truncTo (fp : FpEnv) (lo hi : ℤ) : Dbl → ℤ
  | fin q => if lo ≤ truncQ q ∧ truncQ q ≤ hi then truncQ q else fp.undefConv
  | _ => fp.undefConv

/-- The cast `(int)x`. -/
def toInt (fp : FpEnv) (x : Dbl) : ℤ := truncTo fp (-(2 ^ 31)) (2 ^ 31 - 1) x

/-- The cast `(Uint8)x` of a double. -/
def toUint8 (fp : FpEnv) (x : Dbl) : Nat := (truncTo fp 0 255 x % 256).toNat

end Dbl

/-! ## Program state -/

/-- One RGBA32 pixel, as the channels `SDL_GetRGBA` yields. -/
structure Pixel where
  r : Nat
  g : Nat
  b : Nat
  a : Nat
  deriving DecidableEq, Inhabited

/-- The `SDL_Surface` fields the program uses. -/
structure Surface where
  w : Nat
  h : Nat
  pixels : List Pixel
  deriving DecidableEq

/-- The `const size_t pixelCount = surface->w * surface->h;` of every operation. -/
def Surface.pixelCount (s : Surface) : Nat := s.w * s.h

/-- The globals of `main.c` that the operations read or write. -/
structure State where
  surface : Option Surface
  currentHistogram : List Nat
  k : Nat
  L : Dbl
  deriving DecidableEq

/-- What an operation reports: the "Imagem inválida" log line, the "A imagem deve ser cinza"
line, or neither (the operation ran to its end). -/
inductive Outcome where
  | invalidImage
  | mustBeGray
  | done
  deriving DecidableEq

/-- Every channel is an 8-bit value. -/
def Pixel.WF (p : Pixel) : Prop := p.r < 256 ∧ p.g < 256 ∧ p.b < 256 ∧ p.a < 256

instance (p : Pixel) : Decidable p.WF := by unfold Pixel.WF; infer_instance

/-- The invariant of a loaded surface: the buffer holds `w * h` pixels of 8-bit channels, and
`w * h` fits an `int`. -/
def Surface.WF (s : Surface) : Prop :=
  s.pixels.length = s.w * s.h ∧ s.w * s.h < 2 ^ 31 ∧ ∀ p ∈ s.pixels, p.WF

instance (s : Surface) : Decidable s.WF := by unfold Surface.WF; infer_instance

/-- The loop `for (i = 0; i < n; ++i) body(i)` over a loop state. -/
def forLoop {σ : Type} (body : Nat → σ → σ) : Nat → σ → σ
  | 0, s => s
  | n + 1, s => body n (forLoop body n s)

/-- The `bits_per_pixel` of the RGBA32 format every loaded surface is converted to. -/
def bitsPerPixel : Nat := 32

/-- The `bytes_per_pixel` of the RGBA32 format. -/
def bytesPerPixel : Nat := 4

/-! ## The operations -/

/-- The test of `checkGrayScale` on one pixel: `r != g && g != b`. -/
def rejects (p : Pixel) : Bool := p.r != p.g && p.g != p.b

/-- `checkGrayScale`: `false` at the first pixel with `r != g && g != b`, `true` when the loop
over all `pixelCount` pixels ends. -/
def checkGrayScale (s : Surface) : Bool :=
  (List.range s.pixelCount).all fun i => !rejects (s.pixels.getD i default)

/-- `greyImageArithmeticAverage`. -/
def greyImageArithmeticAverage (st : State) : Outcome × State :=
  match st.surface with
  | none => (Outcome.invalidImage, st)
  | some s =>
    let px := forLoop (fun i px =>
      let p := px.getD i default
      let average := ((p.r + p.g + p.b) / 3) % 256
      px.set i ⟨average, average, average, p.a⟩) s.pixelCount s.pixels
    (Outcome.done, { st with surface := some { s with pixels := px } })

/-- The expression `(Uint8)(r * 0.2126 + g * 0.7152 + b * 0.0722)`. -/
def weightedSum (fp : FpEnv) (r g b : Nat) : Nat :=
  Dbl.toUint8 fp
    (Dbl.add fp
      (Dbl.add fp
        (Dbl.mul fp (Dbl.ofInt fp r) (Dbl.lit fp (2126 / 10000)))
        (Dbl.mul fp (Dbl.ofInt fp g) (Dbl.lit fp (7152 / 10000))))
      (Dbl.mul fp (Dbl.ofInt fp b) (Dbl.lit fp (722 / 10000))))

/-- `greyImageWeightedSum`. -/
def greyImageWeightedSum (fp : FpEnv) (st : State) : Outcome × State :=
  match st.surface with
  | none => (Outcome.invalidImage, st)
  | some s =>
    let px := forLoop (fun i px =>
      let p := px.getD i default
      let average := weightedSum fp p.r p.g p.b
      px.set i ⟨average, average, average, p.a⟩) s.pixelCount s.pixels
    (Outcome.done, { st with surface := some { s with pixels := px } })

/-- The counting loop of `imageHistogram`, `histogram[r] += 1` per pixel from
`int histogram[256] = { 0 }`, after its first `n` rounds. -/
def countUpTo (s : Surface) (n : Nat) : List Nat :=
  forLoop (fun i hist =>
    let p := s.pixels.getD i default
    hist.set p.r (hist.getD p.r 0 + 1)) n (List.replicate 256 0)

/-- The counting loop of `imageHistogram`, run over all `pixelCount` pixels. -/
def countLoop (s : Surface) : List Nat := countUpTo s s.pixelCount

/-- The loop `for (i = 0; i < 256; i++) currentHistogram[i] = src[i];`. -/
def copyLoop (src cur : List Nat) : List Nat :=
  forLoop (fun i c => c.set i (src.getD i 0)) 256 cur

/-- `imageHistogram`. -/
def imageHistogram (st : State) : Outcome × State :=
  match st.surface with
  | none => (Outcome.invalidImage, st)
  | some s =>
    if !checkGrayScale s then (Outcome.mustBeGray, st)
    else (Outcome.done, { st with currentHistogram := copyLoop (countLoop s) st.currentHistogram })

/-- The inner loop of the transform, `soma += currentHistogram[j]` for `j = 0 .. k`. -/
def soma (cur : List Nat) (k : Nat) : Nat :=
  forLoop (fun j acc => acc + cur.getD j 0) (k + 1) 0

/-- The first loop of `histogramEqualization` after its first `n` rounds: round `k` fills
`histogramE[k] = (L - 1) * soma / (M * N)` and updates `maxValue`, from
`double histogramE[256] = { 0 }` and `double maxValue = -1`. -/
def cdfUpTo (fp : FpEnv) (L : Dbl) (cur : List Nat) (M N : Nat) (n : Nat) : List Dbl × Dbl :=
  forLoop (fun k (acc : List Dbl × Dbl) =>
    let e := Dbl.div fp
      (Dbl.mul fp (Dbl.sub fp L (Dbl.ofInt fp 1)) (Dbl.ofInt fp (soma cur k)))
      (Dbl.ofInt fp ((M * N : Nat) : ℤ))
    (acc.1.set k e, if Dbl.gt e acc.2 then e else acc.2)) n
    (List.replicate 256 (Dbl.fin 0), Dbl.ofInt fp (-1))

/-- The first loop of `histogramEqualization` as written: `for (int k = 0; k < 255; k++)`. -/
def cdfLoop (fp : FpEnv) (L : Dbl) (cur : List Nat) (M N : Nat) : List Dbl × Dbl :=
  cdfUpTo fp L cur M N 255

/-- The second loop: the search of the largest entry over `i = 0 .. 255`. -/
def maxLoop (histE : List Dbl) (maxValue : Dbl) : Dbl :=
  forLoop (fun i m => if Dbl.gt (histE.getD i default) m then histE.getD i default else m)
    256 maxValue

/-- The third loop: `histogramE[i] = (histogramE[i] * 255) / maxValue` for `i = 0 .. 255`. -/
def normalizeLoop (fp : FpEnv) (histE : List Dbl) (maxValue : Dbl) : List Dbl :=
  forLoop (fun i h =>
    h.set i (Dbl.div fp (Dbl.mul fp (h.getD i default) (Dbl.ofInt fp 255)) maxValue)) 256 histE

/-- The new channel value `(int)histogramE[r]` stored into the `Uint8` variables. -/
def newIntensity (fp : FpEnv) (histE : List Dbl) (r : Nat) : Nat :=
  (Dbl.toInt fp (histE.getD r default) % 256).toNat

/-- The last loop: every pixel is rewritten to its new intensity and counted in
`newHistogram`, from `int newHistogram[256] = { 0 }`. -/
def remapLoop (fp : FpEnv) (histE : List Dbl) (n : Nat) (pixels : List Pixel) :
    List Pixel × List Nat :=
  forLoop (fun i (acc : List Pixel × List Nat) =>
    let p := acc.1.getD i default
    let v := newIntensity fp histE p.r
    (acc.1.set i ⟨v, v, v, p.a⟩, acc.2.set v (acc.2.getD v 0 + 1))) n
    (pixels, List.replicate 256 0)

/-- The value of `maxValue` when the rescale loop starts. -/
def maxValue (fp : FpEnv) (cur : List Nat) (s : Surface) : Dbl :=
  let L := Dbl.fin (2 ^ (bitsPerPixel / bytesPerPixel))
  let c := cdfLoop fp L cur s.h s.w
  maxLoop c.1 c.2

/-- The table `histogramE` when the pixel loop starts. -/
def equalizationTable (fp : FpEnv) (cur : List Nat) (s : Surface) : List Dbl :=
  let L := Dbl.fin (2 ^ (bitsPerPixel / bytesPerPixel))
  let c := cdfLoop fp L cur s.h s.w
  normalizeLoop fp c.1 (maxLoop c.1 c.2)

/-- `histogramEqualization`. -/
def histogramEqualization (fp : FpEnv) (st : State) : Outcome × State :=
  match st.surface with
  | none => (Outcome.invalidImage, st)
  | some s =>
    if !checkGrayScale s then (Outcome.mustBeGray, st)
    else
      let st1 := (imageHistogram st).2
      let k := bitsPerPixel / bytesPerPixel
      let L := Dbl.fin (2 ^ k)
      let histE := equalizationTable fp st1.currentHistogram s
      let out := remapLoop fp histE s.pixelCount s.pixels
      (Outcome.done,
        { surface := some { s with pixels := out.1 }
          currentHistogram := copyLoop out.2 st1.currentHistogram
          k := k
          L := L })

/-! ## Quantities that describe the table -/

/-- The number of pixels of intensity at most `v` (the red channel is the intensity). -/
def cum (s : Surface) (v : Nat) : Nat := s.pixels.countP fun p => decide (p.r ≤ v)

/-- The value the first loop leaves in `histogramE[v]` in exact arithmetic on a non-empty
image: `255 * cum v / (M * N)` for the levels `0 .. 254` the loop visits, and the initial `0`
at level 255, which it does not visit. -/
def rawEntry (s : Surface) (v : Nat) : ℚ :=
  if v < 255 then 255 * (cum s v : ℚ) / ((s.h * s.w : Nat) : ℚ) else 0

/-- The rational a finite double denotes; 0 for an infinity or NaN. -/
def Dbl.value : Dbl → ℚ
  | Dbl.fin q => q
  | _ => 0

/-- The value the first loop leaves in `histogramE[v]` in binary64 arithmetic on a non-empty
image: the exact quotient, rounded once (the product `255 * cum v` is an integer and is
exact). -/
def ieeeEntry (s : Surface) (v : Nat) : ℚ := (binary64 (rawEntry s v)).value

/-! ## The images of the end-to-end scenarios -/

/-- The 2x2 image of the scenarios: three black pixels and one white pixel, all of alpha 255. -/
def scenarioImage : Surface :=
  ⟨2, 2, [⟨0, 0, 0, 255⟩, ⟨0, 0, 0, 255⟩, ⟨0, 0, 0, 255⟩, ⟨255, 255, 255, 255⟩]⟩

/-- The program state right after a surface is loaded: `currentHistogram` is still the
zero-initialised array, `k` and `L` are still zero. -/
def loaded (s : Surface) : State := ⟨some s, List.replicate 256 0, 0, Dbl.fin 0⟩

/-- A 1x1 image whose only pixel is white. -/
def whiteImage : Surface := ⟨1, 1, [⟨255, 255, 255, 255⟩]⟩

/-- The zero-sized image. -/
def emptyImage : Surface := ⟨0, 0, []⟩

/-- A state in which a zero-sized image is loaded while `currentHistogram` still shows the
histogram of the scenario image. -/
def staleState : State := ⟨some emptyImage, 3 :: (List.replicate 254 0 ++ [1]), 0, Dbl.fin 0⟩

theorem forLoop_succ {σ : Type} (body : Nat → σ → σ) (n : Nat) (s : σ) :
    forLoop body (n + 1) s = body n (forLoop body n s) := rfl

/-- The in-place rewriting loop keeps the length of the buffer. -/
theorem length_forLoop_set {α : Type} [Inhabited α] (f : α → α) (n : Nat) (l : List α) :
    (forLoop (fun i px => px.set i (f (px.getD i default))) n l).length = l.length := by
  induction n with
  | zero => rfl
  | succ n ih => rw [forLoop_succ, List.length_set, ih]

/-- Entry `j` after the first `n` rounds of the in-place rewriting loop. -/
theorem getElem?_forLoop_set {α : Type} [Inhabited α] (f : α → α) (n : Nat) (l : List α)
    (j : Nat) :
    (forLoop (fun i px => px.set i (f (px.getD i default))) n l)[j]?
      = if j < n then l[j]?.map f else l[j]? := by
  induction n with
  | zero => simp [forLoop]
  | succ n ih =>
    rw [forLoop_succ, List.getElem?_set, length_forLoop_set]
    by_cases hnj : n = j
    · subst hnj
      rw [List.getD_eq_getElem?_getD, ih]
      by_cases hl : n < l.length
      · simp [hl, List.getElem?_eq_getElem hl]
      · simp [hl, List.getElem?_eq_none (Nat.le_of_not_lt hl)]
    · rw [if_neg hnj, ih]
      by_cases h1 : j < n
      · simp [h1, Nat.lt_succ_of_lt h1]
      · have h2 : ¬ j < n + 1 := by omega
        simp [h1, h2]

/-- A rewriting loop that runs over the whole buffer is a `map`. -/
theorem forLoop_set_eq_map {α : Type} [Inhabited α] (f : α → α) (l : List α) :
    forLoop (fun i px => px.set i (f (px.getD i default))) l.length l = l.map f := by
  apply List.ext_getElem?
  intro j
  rw [getElem?_forLoop_set, List.getElem?_map]
  by_cases h : j < l.length
  · simp [h]
  · simp [h, List.getElem?_eq_none (Nat.le_of_not_lt h)]

/-! ## The counting and copy loops -/

/-- Incrementing one bucket that exists adds one to the sum of the buckets. -/
theorem sum_set_succ (l : List Nat) (i : Nat) (hi : i < l.length) :
    (l.set i (l.getD i 0 + 1)).sum = l.sum + 1 := by
  induction l generalizing i with
  | nil => simp at hi
  | cons a l ih =>
    cases i with
    | zero => simp; omega
    | succ i =>
      have := ih i (by simpa using hi)
      simp at this ⊢
      omega

theorem length_countUpTo (s : Surface) (n : Nat) : (countUpTo s n).length = 256 := by
  induction n with
  | zero => simp only [countUpTo, forLoop, List.length_replicate]
  | succ n ih =>
    unfold countUpTo at ih ⊢
    rw [forLoop_succ]
    simp only [List.length_set]
    exact ih

theorem getElem?_countUpTo (s : Surface) (n : Nat) (hn : n ≤ s.pixels.length) (v : Nat) :
    (countUpTo s n)[v]?
      = if v < 256 then some ((s.pixels.take n).countP fun p => p.r == v) else none := by
  induction n with
  | zero =>
    simp only [countUpTo, forLoop, List.getElem?_replicate, List.take_zero, List.countP_nil]
  | succ n ih =>
    have hlen := length_countUpTo s n
    have ih := ih (Nat.le_of_succ_le hn)
    have hn1 : n < s.pixels.length := hn
    unfold countUpTo at ih hlen ⊢
    rw [forLoop_succ]
    simp only []
    rw [List.getElem?_set, hlen, List.take_succ, List.countP_append,
      List.getD_eq_getElem s.pixels default hn1, List.getElem?_eq_getElem hn1]
    by_cases hv : s.pixels[n].r = v
    · subst hv
      rw [if_pos rfl]
      by_cases h256 : s.pixels[n].r < 256
      · rw [if_pos h256, if_pos h256, List.getD_eq_getElem?_getD, ih, if_pos h256]
        simp
      · rw [if_neg h256, if_neg h256]
    · rw [if_neg hv, ih]
      have : (s.pixels[n].r == v) = false := by simpa using hv
      simp [List.countP_cons, this]

theorem sum_countUpTo (s : Surface) (n : Nat) (hn : n ≤ s.pixels.length)
    (hwf : ∀ p ∈ s.pixels, p.WF) : (countUpTo s n).sum = n := by
  induction n with
  | zero => simp only [countUpTo, forLoop, List.sum_replicate, smul_zero]
  | succ n ih =>
    have hlen := length_countUpTo s n
    have ih := ih (Nat.le_of_succ_le hn)
    have hn1 : n < s.pixels.length := hn
    unfold countUpTo at ih hlen ⊢
    rw [forLoop_succ]
    simp only []
    rw [sum_set_succ _ _ (by
      rw [hlen, List.getD_eq_getElem s.pixels default hn1]
      exact (hwf _ (List.getElem_mem hn1)).1), ih]

/-- The copy loop, entry by entry. -/
theorem getElem?_copy (src cur : List Nat) (n j : Nat) :
    (forLoop (fun i c => c.set i (src.getD i 0)) n cur)[j]?
      = if j < n ∧ j < cur.length then some (src.getD j 0) else cur[j]? := by
  induction n with
  | zero => simp [forLoop]
  | succ n ih =>
    have hlen : (forLoop (fun i (c : List Nat) => c.set i (src.getD i 0)) n cur).length
        = cur.length := by
      clear ih
      induction n with
      | zero => rfl
      | succ n ih => rw [forLoop_succ, List.length_set, ih]
    rw [forLoop_succ, List.getElem?_set, hlen, ih]
    by_cases hnj : n = j
    · subst hnj
      by_cases hl : n < cur.length
      · simp [hl]
      · simp [hl, List.getElem?_eq_none (Nat.le_of_not_lt hl)]
    · rw [if_neg hnj]
      by_cases h1 : j < n
      · have : j < n + 1 := by omega
        simp [h1, this]
      · have : ¬ j < n + 1 := by omega
        simp [h1, this]

/-- Copying a 256-bucket histogram into the 256-bucket `currentHistogram` replaces it. -/
theorem copyLoop_eq (src cur : List Nat) (hs : src.length = 256) (hc : cur.length = 256) :
    copyLoop src cur = src := by
  apply List.ext_getElem?
  intro j
  unfold copyLoop
  rw [getElem?_copy, hc]
  by_cases h : j < 256
  · simp [h, List.getD_eq_getElem?_getD, List.getElem?_eq_getElem (hs ▸ h)]
  · simp [h, List.getElem?_eq_none (by omega : cur.length ≤ j),
      List.getElem?_eq_none (by omega : src.length ≤ j)]

/-! ## Grayscale conversion by the arithmetic mean -/

/-- C4. On a loaded, well-formed image `greyImageArithmeticAverage` replaces every pixel
`(R, G, B, A)` by `(m, m, m, A)` with `m = (R + G + B) / 3` in truncating integer division;
`m` is at most 255, so the store into the 8-bit `average` loses nothing, and alpha, width and
height are unchanged. -/
theorem greyImageArithmeticAverage_spec (st : State) (s : Surface)
    (hs : st.surface = some s) (hwf : s.WF) :
    greyImageArithmeticAverage st
        = (Outcome.done,
            { st with surface := some { s with pixels := s.pixels.map fun p =>
                ⟨(p.r + p.g + p.b) / 3, (p.r + p.g + p.b) / 3, (p.r + p.g + p.b) / 3, p.a⟩ } })
      ∧ ∀ p ∈ s.pixels, (p.r + p.g + p.b) / 3 ≤ 255 := by
  have hb : ∀ p ∈ s.pixels, (p.r + p.g + p.b) / 3 ≤ 255 := by
    intro p hp
    obtain ⟨h1, h2, h3, _⟩ := hwf.2.2 p hp
    omega
  refine ⟨?_, hb⟩
  unfold greyImageArithmeticAverage
  rw [hs]
  simp only [Surface.pixelCount]
  rw [← hwf.1]
  rw [forLoop_set_eq_map (fun p : Pixel =>
    (⟨((p.r + p.g + p.b) / 3) % 256, ((p.r + p.g + p.b) / 3) % 256,
      ((p.r + p.g + p.b) / 3) % 256, p.a⟩ : Pixel)) s.pixels]
  congr 4
  apply List.map_congr_left
  intro p hp
  have := hb p hp
  rw [Nat.mod_eq_of_lt (by omega)]

/-- The mean of the pixel (10, 20, 40, 255) is 23: a 1x1 instance of C4. -/
theorem greyImageArithmeticAverage_spec_witness :
    (greyImageArithmeticAverage
        ⟨some ⟨1, 1, [⟨10, 20, 40, 255⟩]⟩, List.replicate 256 0, 0, Dbl.fin 0⟩
        = (Outcome.done,
            { (⟨some ⟨1, 1, [⟨10, 20, 40, 255⟩]⟩, List.replicate 256 0, 0, Dbl.fin 0⟩ : State)
              with surface := some { (⟨1, 1, [⟨10, 20, 40, 255⟩]⟩ : Surface) with
                pixels := [(⟨10, 20, 40, 255⟩ : Pixel)].map fun p =>
                  ⟨(p.r + p.g + p.b) / 3, (p.r + p.g + p.b) / 3, (p.r + p.g + p.b) / 3, p.a⟩ } })
      ∧ ∀ p ∈ [(⟨10, 20, 40, 255⟩ : Pixel)], (p.r + p.g + p.b) / 3 ≤ 255) :=
  greyImageArithmeticAverage_spec
    ⟨some ⟨1, 1, [⟨10, 20, 40, 255⟩]⟩, List.replicate 256 0, 0, Dbl.fin 0⟩
    ⟨1, 1, [⟨10, 20, 40, 255⟩]⟩ rfl (by decide)

/-! ## The grayscale check and the histogram -/

theorem newIntensity_lt (fp : FpEnv) (histE : List Dbl) (r : Nat) :
    newIntensity fp histE r < 256 := by
  unfold newIntensity
  omega

theorem remapLoop_hist (fp : FpEnv) (histE : List Dbl) (n : Nat) (px : List Pixel) :
    (remapLoop fp histE n px).2.length = 256 ∧ (remapLoop fp histE n px).2.sum = n := by
  induction n with
  | zero => simp only [remapLoop, forLoop, List.length_replicate, List.sum_replicate, smul_zero,
      and_self]
  | succ n ih =>
    unfold remapLoop at ih ⊢
    rw [forLoop_succ]
    simp only [List.length_set]
    refine ⟨ih.1, ?_⟩
    rw [sum_set_succ _ _ (by rw [ih.1]; exact newIntensity_lt _ _ _), ih.2]

/-- On a buffer of `w * h` pixels `checkGrayScale` accepts exactly when no pixel has
`r != g && g != b`. -/
theorem checkGrayScale_iff (s : Surface) (hlen : s.pixels.length = s.w * s.h) :
    checkGrayScale s = true ↔ ∀ p ∈ s.pixels, rejects p = false := by
  unfold checkGrayScale Surface.pixelCount
  rw [List.all_eq_true, ← hlen]
  constructor
  · intro h p hp
    obtain ⟨i, hi, rfl⟩ := List.mem_iff_getElem.1 hp
    have := h i (List.mem_range.2 hi)
    rw [List.getD_eq_getElem _ _ hi] at this
    simpa using this
  · intro h i hi
    have hi := List.mem_range.1 hi
    rw [List.getD_eq_getElem _ _ hi, h _ (List.getElem_mem hi)]
    rfl

theorem checkGrayScale_of_gray (s : Surface) (hlen : s.pixels.length = s.w * s.h)
    (hgray : ∀ p ∈ s.pixels, p.r = p.g ∧ p.g = p.b) : checkGrayScale s = true := by
  rw [checkGrayScale_iff s hlen]
  intro p hp
  simp [rejects, (hgray p hp).1, (hgray p hp).2]

/-- What `imageHistogram` does on a loaded image that passes the check. -/
theorem imageHistogram_eq (st : State) (s : Surface) (hs : st.surface = some s)
    (hcur : st.currentHistogram.length = 256) (hacc : checkGrayScale s = true) :
    imageHistogram st = (Outcome.done, { st with currentHistogram := countLoop s }) := by
  unfold imageHistogram
  rw [hs]
  simp only [hacc, Bool.not_true, Bool.false_eq_true, if_false]
  rw [copyLoop_eq (countLoop s) _ (length_countUpTo s _) hcur]

/-- C2. On a loaded, well-formed image in which every pixel has R = G = B, `imageHistogram`
runs to its end, leaves the surface (every pixel of the buffer) as it was, and sets the
current histogram to 256 buckets of which bucket `v`, for every level `v` in 0..255, is the
number of pixels of intensity `v`. -/
theorem imageHistogram_spec (st : State) (s : Surface) (hs : st.surface = some s)
    (hwf : s.WF) (hcur : st.currentHistogram.length = 256)
    (hgray : ∀ p ∈ s.pixels, p.r = p.g ∧ p.g = p.b) :
    (imageHistogram st).1 = Outcome.done
      ∧ (imageHistogram st).2.surface = some s
      ∧ (imageHistogram st).2.currentHistogram.length = 256
      ∧ ∀ v, v < 256 →
          (imageHistogram st).2.currentHistogram[v]?
            = some (s.pixels.countP fun p => p.r == v) := by
  rw [imageHistogram_eq st s hs hcur (checkGrayScale_of_gray s hwf.1 hgray)]
  refine ⟨rfl, hs, length_countUpTo s _, ?_⟩
  intro v hv
  show (countUpTo s s.pixelCount)[v]? = _
  rw [getElem?_countUpTo s _ (by rw [hwf.1]; exact Nat.le_refl _), if_pos hv,
    Surface.pixelCount, ← hwf.1, List.take_length]

/-- The scenario image: bucket 0 is 3, bucket 255 is 1, every other bucket is 0, and the
surface is untouched. -/
theorem imageHistogram_spec_witness :
    (imageHistogram (loaded scenarioImage)).2.surface = some scenarioImage
      ∧ (imageHistogram (loaded scenarioImage)).2.currentHistogram[0]? = some 3
      ∧ (imageHistogram (loaded scenarioImage)).2.currentHistogram[255]? = some 1
      ∧ ∀ v, 0 < v → v < 255 →
          (imageHistogram (loaded scenarioImage)).2.currentHistogram[v]? = some 0 := by
  obtain ⟨_, h2, _, h4⟩ := imageHistogram_spec (loaded scenarioImage) scenarioImage rfl
    (by decide) (List.length_replicate 256 0) (by decide)
  refine ⟨h2, ?_, ?_, ?_⟩
  · rw [h4 0 (by decide)]; rfl
  · rw [h4 255 (by decide)]; rfl
  · intro v h0 h255
    rw [h4 v (by omega)]
    have e1 : (0 == v) = false := by simpa using (by omega : ¬ 0 = v)
    have e2 : (255 == v) = false := by simpa using (by omega : ¬ 255 = v)
    simp [scenarioImage, List.countP_cons, e1, e2]

/-- C3 (the code at a failing input). The 1x1 image whose only pixel is (10, 20, 20, 255) has
R different from G, yet `checkGrayScale` returns true, and both `imageHistogram` and
`histogramEqualization` run to their end instead of reporting that the image must be gray. -/
theorem checkGrayScale_accepts_non_gray :
    checkGrayScale ⟨1, 1, [⟨10, 20, 20, 255⟩]⟩ = true
      ∧ (imageHistogram (loaded ⟨1, 1, [⟨10, 20, 20, 255⟩]⟩)).1 = Outcome.done
      ∧ (imageHistogram (loaded ⟨1, 1, [⟨10, 20, 20, 255⟩]⟩)).2.currentHistogram[10]? = some 1
      ∧ ∀ fp, (histogramEqualization fp (loaded ⟨1, 1, [⟨10, 20, 20, 255⟩]⟩)).1
          = Outcome.done := by
  refine ⟨by decide, by decide, ?_, fun fp => rfl⟩
  rw [imageHistogram_eq (loaded ⟨1, 1, [⟨10, 20, 20, 255⟩]⟩) ⟨1, 1, [⟨10, 20, 20, 255⟩]⟩ rfl
    (List.length_replicate 256 0) (by decide)]
  show (countUpTo ⟨1, 1, [⟨10, 20, 20, 255⟩]⟩ 1)[10]? = some 1
  rw [getElem?_countUpTo _ _ (by decide)]
  rfl

/-- C6. For every loaded, well-formed image that `checkGrayScale` accepts, the current
histogram left by `imageHistogram` has 256 buckets that sum to `w * h`, and so has the
current histogram left by `histogramEqualization`, in every floating-point environment. -/
theorem histogram_sum (fp : FpEnv) (st : State) (s : Surface) (hs : st.surface = some s)
    (hwf : s.WF) (hcur : st.currentHistogram.length = 256) (hacc : checkGrayScale s = true) :
    (imageHistogram st).2.currentHistogram.length = 256
      ∧ (imageHistogram st).2.currentHistogram.sum = s.w * s.h
      ∧ (histogramEqualization fp st).2.currentHistogram.length = 256
      ∧ (histogramEqualization fp st).2.currentHistogram.sum = s.w * s.h := by
  have h1 := imageHistogram_eq st s hs hcur hacc
  have h2 : (histogramEqualization fp st).2.currentHistogram
      = (remapLoop fp (equalizationTable fp (countLoop s) s) s.pixelCount s.pixels).2 := by
    unfold histogramEqualization
    rw [hs]
    simp only [hacc, Bool.not_true, Bool.false_eq_true, if_false]
    rw [copyLoop_eq _ _ (remapLoop_hist _ _ _ _).1 (by rw [h1]; exact length_countUpTo s _),
      h1]
  refine ⟨?_, ?_, ?_, ?_⟩
  · rw [h1]
    exact length_countUpTo s _
  · rw [h1]
    show (countUpTo s s.pixelCount).sum = _
    rw [sum_countUpTo s _ (by rw [hwf.1]; exact Nat.le_refl _) hwf.2.2]
    rfl
  · rw [h2]
    exact (remapLoop_hist _ _ _ _).1
  · rw [h2]
    exact (remapLoop_hist _ _ _ _).2

/-- The scenario image: both histograms have 256 buckets that sum to 4. -/
theorem histogram_sum_witness :
    (imageHistogram (loaded scenarioImage)).2.currentHistogram.length = 256
      ∧ (imageHistogram (loaded scenarioImage)).2.currentHistogram.sum = 2 * 2
      ∧ (histogramEqualization (FpEnv.ieee 0) (loaded scenarioImage)).2.currentHistogram.length
          = 256
      ∧ (histogramEqualization (FpEnv.ieee 0) (loaded scenarioImage)).2.currentHistogram.sum
          = 2 * 2 :=
  histogram_sum (FpEnv.ieee 0) (loaded scenarioImage) scenarioImage rfl (by decide)
    (List.length_replicate 256 0) (by decide)

/-! ## Rounding to binary64 -/

/-- Rounding to nearest moves a value by at most one half. -/
theorem abs_roundHalfEven_sub_le (y : ℚ) : |(roundHalfEven y : ℚ) - y| ≤ 1 / 2 := by
  have h1 : (⌊y⌋ : ℚ) ≤ y := Int.floor_le y
  have h2 : y < ⌊y⌋ + 1 := Int.lt_floor_add_one y
  unfold roundHalfEven
  rw [abs_le]
  split_ifs with a b c
  · constructor <;> linarith
  · push_cast
    constructor <;> linarith
  · constructor <;> linarith
  · push_cast
    constructor <;> linarith

/-- A value strictly within one half of an integer rounds to that integer. -/
theorem roundHalfEven_eq_of_abs_lt (y : ℚ) (m : ℤ) (h : |y - m| < 1 / 2) :
    roundHalfEven y = m := by
  rw [abs_lt] at h
  obtain ⟨h1, h2⟩ := h
  unfold roundHalfEven
  by_cases hc : (m : ℚ) ≤ y
  · have hf : ⌊y⌋ = m := Int.floor_eq_iff.2 ⟨hc, by linarith⟩
    rw [hf, if_pos (by linarith)]
  · have hc : y < m := not_le.1 hc
    have hf : ⌊y⌋ = m - 1 := Int.floor_eq_iff.2 ⟨by push_cast; linarith, by push_cast; linarith⟩
    rw [hf]
    push_cast
    rw [if_neg (by linarith), if_pos (by linarith)]
    ring

/-- Evaluation of `binary64` at a positive value in the normal range: with `e` the binary
exponent of `x` and `m` the integer nearest to `x / 2 ^ (e - 52)`, the result is
`m * 2 ^ (e - 52)`. -/
theorem binary64_eq (x : ℚ) (e m : ℤ) (hx : 0 < x) (h1 : (2 : ℚ) ^ e ≤ x)
    (h2 : x < (2 : ℚ) ^ (e + 1)) (he : -1022 ≤ e)
    (hm : |x / (2 : ℚ) ^ (e - 52) - m| < 1 / 2)
    (hov : |(m : ℚ) * (2 : ℚ) ^ (e - 52)| < 2 ^ 1024) :
    binary64 x = Dbl.fin (m * (2 : ℚ) ^ (e - 52)) := by
  have hlog : Int.log 2 |x| = e := by
    rw [abs_of_pos hx]
    apply le_antisymm
    · have := (Int.lt_zpow_iff_log_lt (b := 2) (by norm_num) hx (x := e + 1)).1
        (by exact_mod_cast h2)
      omega
    · exact (Int.zpow_le_iff_le_log (b := 2) (by norm_num) hx).1 (by exact_mod_cast h1)
  unfold binary64
  rw [if_neg (ne_of_gt hx)]
  simp only [hlog, max_eq_left he]
  rw [roundHalfEven_eq_of_abs_lt _ m hm, if_neg (not_le.2 hov)]

/-- Below 256 in absolute value, `binary64` yields a finite value within `2 ^ (-46)` of the
exact one. -/
theorem binary64_near (x : ℚ) (hx : |x| < 256) :
    ∃ y, binary64 x = Dbl.fin y ∧ |y - x| ≤ 1 / 2 ^ 46 := by
  by_cases h0 : x = 0
  · exact ⟨0, by simp [binary64, h0], by simp [h0]⟩
  · have hpos : 0 < |x| := abs_pos.2 h0
    have hlog : Int.log 2 |x| < 8 :=
      (Int.lt_zpow_iff_log_lt (b := 2) (by norm_num) hpos (x := 8)).1 (by
        norm_num
        exact hx)
    have he : max (Int.log 2 |x|) (-1022) ≤ 7 := by
      apply max_le <;> omega
    have hulp0 : (0 : ℚ) < 2 ^ (max (Int.log 2 |x|) (-1022) - 52) := by positivity
    have hulp : (2 : ℚ) ^ (max (Int.log 2 |x|) (-1022) - 52) ≤ 1 / 2 ^ 45 := by
      have := zpow_le_zpow_right₀ (a := (2 : ℚ)) (by norm_num)
        (show max (Int.log 2 |x|) (-1022) - 52 ≤ -45 by omega)
      refine le_trans this (le_of_eq ?_)
      norm_num
    have herr := abs_roundHalfEven_sub_le (x / 2 ^ (max (Int.log 2 |x|) (-1022) - 52))
    have hy : |(roundHalfEven (x / 2 ^ (max (Int.log 2 |x|) (-1022) - 52)) : ℚ)
        * 2 ^ (max (Int.log 2 |x|) (-1022) - 52) - x| ≤ 1 / 2 ^ 46 := by
      have e1 : (roundHalfEven (x / 2 ^ (max (Int.log 2 |x|) (-1022) - 52)) : ℚ)
          * 2 ^ (max (Int.log 2 |x|) (-1022) - 52) - x
          = ((roundHalfEven (x / 2 ^ (max (Int.log 2 |x|) (-1022) - 52)) : ℚ)
              - x / 2 ^ (max (Int.log 2 |x|) (-1022) - 52))
            * 2 ^ (max (Int.log 2 |x|) (-1022) - 52) := by
        field_simp
      rw [e1, abs_mul, abs_of_pos hulp0]
      calc _ ≤ (1 / 2 : ℚ) * (1 / 2 ^ 45) :=
            mul_le_mul herr hulp (le_of_lt hulp0) (by norm_num)
        _ = 1 / 2 ^ 46 := by norm_num
    refine ⟨_, ?_, hy⟩
    unfold binary64
    rw [if_neg h0]
    simp only []
    rw [if_neg]
    rw [not_le]
    have : |(roundHalfEven (x / 2 ^ (max (Int.log 2 |x|) (-1022) - 52)) : ℚ)
        * 2 ^ (max (Int.log 2 |x|) (-1022) - 52)| ≤ |x| + 1 / 2 ^ 46 := by
      have := abs_sub_abs_le_abs_sub
        ((roundHalfEven (x / 2 ^ (max (Int.log 2 |x|) (-1022) - 52)) : ℚ)
          * 2 ^ (max (Int.log 2 |x|) (-1022) - 52)) x
      linarith
    refine lt_of_le_of_lt this (lt_trans (b := (257 : ℚ)) ?_ ?_)
    · have : (1 : ℚ) / 2 ^ 46 < 1 := by norm_num
      linarith
    · norm_num

/-- Rounding to nearest never goes below the floor. -/
theorem floor_le_roundHalfEven (z : ℚ) : ⌊z⌋ ≤ roundHalfEven z := by
  unfold roundHalfEven
  split_ifs <;> omega

/-- Rounding to nearest never passes an integer that bounds the value from above. -/
theorem roundHalfEven_le_of_le (z : ℚ) (K : ℤ) (h : z ≤ K) : roundHalfEven z ≤ K := by
  have h1 : (⌊z⌋ : ℚ) ≤ z := Int.floor_le z
  have hK : ⌊z⌋ ≤ K := by exact_mod_cast le_trans h1 h
  by_cases hc : z - ⌊z⌋ < 1 / 2
  · unfold roundHalfEven
    rw [if_pos hc]
    exact hK
  · have hlt : (⌊z⌋ : ℚ) < K := by linarith
    have hlt2 : ⌊z⌋ < K := by exact_mod_cast hlt
    have : roundHalfEven z ≤ ⌊z⌋ + 1 := by
      unfold roundHalfEven
      split_ifs <;> omega
    omega

/-- The binary64 rounding of a non-negative value is non-negative. -/
theorem binary64_nonneg (x y : ℚ) (hx : 0 ≤ x) (h : binary64 x = Dbl.fin y) : 0 ≤ y := by
  unfold binary64 at h
  by_cases h0 : x = 0
  · rw [if_pos h0] at h
    injection h with h
    rw [← h]
  · rw [if_neg h0] at h
    simp only [] at h
    split_ifs at h
    injection h with h
    rw [← h]
    have hz : 0 ≤ x / 2 ^ (max (Int.log 2 |x|) (-1022) - 52) := by positivity
    have : 0 ≤ roundHalfEven (x / 2 ^ (max (Int.log 2 |x|) (-1022) - 52)) :=
      le_trans (Int.floor_nonneg.2 hz) (floor_le_roundHalfEven _)
    have h2 : (0 : ℚ) ≤ (roundHalfEven (x / 2 ^ (max (Int.log 2 |x|) (-1022) - 52)) : ℚ) := by
      exact_mod_cast this
    positivity

/-- A value of `[0, 255 + 2 ^ (-45)]` rounds to a binary64 value of the same interval: its
upper end is a binary64 value. -/
theorem binary64_le_top (x : ℚ) (h0 : 0 ≤ x) (h1 : x ≤ 255 + 1 / 2 ^ 45) :
    ∃ y, binary64 x = Dbl.fin y ∧ 0 ≤ y ∧ y ≤ 255 + 1 / 2 ^ 45 := by
  obtain ⟨y, hy, hnear⟩ := binary64_near x (by
    rw [abs_of_nonneg h0]
    refine lt_of_le_of_lt h1 ?_
    norm_num)
  refine ⟨y, hy, binary64_nonneg x y h0 hy, ?_⟩
  by_cases hsmall : x < 128
  · rw [abs_le] at hnear
    have : (1 : ℚ) / 2 ^ 46 ≤ 1 := by norm_num
    linarith
  · have hx : 0 < x := by linarith
    have hlog : Int.log 2 |x| = 7 := by
      rw [abs_of_pos hx]
      apply le_antisymm
      · have := (Int.lt_zpow_iff_log_lt (b := 2) (by norm_num) hx (x := 8)).1 (by
          norm_num
          refine lt_of_le_of_lt h1 ?_
          norm_num)
        omega
      · exact (Int.zpow_le_iff_le_log (b := 2) (by norm_num) hx).1 (by
          norm_num
          linarith)
    unfold binary64 at hy
    rw [if_neg (ne_of_gt hx)] at hy
    simp only [hlog, max_eq_left (show (-1022 : ℤ) ≤ 7 by norm_num)] at hy
    split_ifs at hy
    injection hy with hy
    rw [← hy]
    have hz : x / 2 ^ ((7 : ℤ) - 52) ≤ ((8972014882652161 : ℤ) : ℚ) := by
      have e : (2 : ℚ) ^ ((7 : ℤ) - 52) = 1 / 2 ^ 45 := by norm_num
      rw [e, div_le_iff₀ (by norm_num)]
      refine le_trans h1 ?_
      norm_num
    have hr := roundHalfEven_le_of_le _ _ hz
    have hr2 : (roundHalfEven (x / 2 ^ ((7 : ℤ) - 52)) : ℚ) ≤ 8972014882652161 := by
      exact_mod_cast hr
    have e : (2 : ℚ) ^ ((7 : ℤ) - 52) = 1 / 2 ^ 45 := by norm_num
    rw [e]
    calc (roundHalfEven (x / (1 / 2 ^ 45)) : ℚ) * (1 / 2 ^ 45)
        ≤ 8972014882652161 * (1 / 2 ^ 45) := by
          apply mul_le_mul_of_nonneg_right _ (by norm_num)
          rw [← e]
          exact hr2
      _ = 255 + 1 / 2 ^ 45 := by norm_num

/-- The relative error of binary64 rounding in the range `[2 ^ (-30), 2 ^ 30]`. -/
theorem binary64_rel (x : ℚ) (h1 : 1 / 2 ^ 30 ≤ x) (h2 : x ≤ 2 ^ 30) :
    ∃ y, binary64 x = Dbl.fin y ∧ |y - x| ≤ x / 2 ^ 53 := by
  have hx : 0 < x := lt_of_lt_of_le (show (0 : ℚ) < 1 / 2 ^ 30 by norm_num) h1
  have hlo : (-30 : ℤ) ≤ Int.log 2 |x| := by
    rw [abs_of_pos hx]
    exact (Int.zpow_le_iff_le_log (b := 2) (by norm_num) hx).1 (by
      norm_num
      linarith)
  have hhi : Int.log 2 |x| < 31 := by
    rw [abs_of_pos hx]
    exact (Int.lt_zpow_iff_log_lt (b := 2) (by norm_num) hx (x := 31)).1 (by
      norm_num
      refine lt_of_le_of_lt h2 ?_
      norm_num)
  have hpow : (2 : ℚ) ^ (Int.log 2 |x|) ≤ x := by
    have := Int.zpow_log_le_self (b := 2) (r := x) (by norm_num) hx
    rw [abs_of_pos hx]
    exact_mod_cast this
  have hmax : max (Int.log 2 |x|) (-1022) = Int.log 2 |x| := max_eq_left (by omega)
  have hulp0 : (0 : ℚ) < 2 ^ (Int.log 2 |x| - 52) := by positivity
  have hulp : (2 : ℚ) ^ (Int.log 2 |x| - 52) = 2 ^ (Int.log 2 |x|) / 2 ^ 52 := by
    rw [zpow_sub₀ (by norm_num)]
    norm_num
  have herr := abs_roundHalfEven_sub_le (x / 2 ^ (Int.log 2 |x| - 52))
  have hy : |(roundHalfEven (x / 2 ^ (Int.log 2 |x| - 52)) : ℚ)
      * 2 ^ (Int.log 2 |x| - 52) - x| ≤ x / 2 ^ 53 := by
    have e1 : (roundHalfEven (x / 2 ^ (Int.log 2 |x| - 52)) : ℚ)
        * 2 ^ (Int.log 2 |x| - 52) - x
        = ((roundHalfEven (x / 2 ^ (Int.log 2 |x| - 52)) : ℚ)
            - x / 2 ^ (Int.log 2 |x| - 52)) * 2 ^ (Int.log 2 |x| - 52) := by
      field_simp
    rw [e1, abs_mul, abs_of_pos hulp0]
    calc _ ≤ (1 / 2 : ℚ) * 2 ^ (Int.log 2 |x| - 52) :=
          mul_le_mul_of_nonneg_right herr (le_of_lt hulp0)
      _ = 2 ^ (Int.log 2 |x|) / 2 ^ 53 := by rw [hulp]; ring
      _ ≤ x / 2 ^ 53 := by
          apply div_le_div_of_nonneg_right hpow (by norm_num)
  refine ⟨_, ?_, hy⟩
  unfold binary64
  rw [if_neg (ne_of_gt hx)]
  simp only [hmax]
  rw [if_neg]
  rw [not_le]
  have : |(roundHalfEven (x / 2 ^ (Int.log 2 |x| - 52)) : ℚ) * 2 ^ (Int.log 2 |x| - 52)|
      ≤ |x| + x / 2 ^ 53 := by
    have := abs_sub_abs_le_abs_sub
      ((roundHalfEven (x / 2 ^ (Int.log 2 |x| - 52)) : ℚ) * 2 ^ (Int.log 2 |x| - 52)) x
    linarith
  have hb : |x| + x / 2 ^ 53 < 2 ^ 1024 := by
    rw [abs_of_pos hx]
    have h3 : x / 2 ^ 53 ≤ x := div_le_self (le_of_lt hx) (by norm_num)
    calc x + x / 2 ^ 53 ≤ 2 ^ 30 + 2 ^ 30 := add_le_add h2 (le_trans h3 h2)
      _ < 2 ^ 1024 := by norm_num
  exact lt_of_le_of_lt this hb

/-- A natural number below `2 ^ 53` is a binary64 value. -/
theorem binary64_nat (n : Nat) (hn : n < 2 ^ 53) : binary64 (n : ℚ) = Dbl.fin n := by
  by_cases h0 : n = 0
  · subst h0
    simp [binary64]
  · have hk : Nat.log 2 n < 53 := Nat.log_lt_of_lt_pow h0 hn
    have hlo : 2 ^ Nat.log 2 n ≤ n := Nat.pow_log_le_self 2 h0
    have hhi : n < 2 ^ (Nat.log 2 n + 1) := Nat.lt_pow_succ_log_self (by norm_num) n
    have hp : (2 : ℚ) ^ ((Nat.log 2 n : ℤ) - 52) * 2 ^ (52 - Nat.log 2 n) = 1 := by
      rw [← zpow_natCast, ← zpow_add₀ (by norm_num)]
      have : ((Nat.log 2 n : ℤ) - 52) + ((52 - Nat.log 2 n : ℕ) : ℤ) = 0 := by omega
      rw [this, zpow_zero]
    have hp0 : (0 : ℚ) < 2 ^ ((Nat.log 2 n : ℤ) - 52) := by positivity
    have hval : (((n * 2 ^ (52 - Nat.log 2 n) : ℕ) : ℤ) : ℚ) * 2 ^ ((Nat.log 2 n : ℤ) - 52)
        = n := by
      push_cast
      rw [mul_assoc, mul_comm ((2 : ℚ) ^ (52 - Nat.log 2 n)), hp, mul_one]
    have hnq : (0 : ℚ) < n := by exact_mod_cast Nat.pos_of_ne_zero h0
    rw [binary64_eq (n : ℚ) (Nat.log 2 n) ((n * 2 ^ (52 - Nat.log 2 n) : ℕ) : ℤ) hnq
      (by rw [zpow_natCast]; exact_mod_cast hlo)
      (by
        have : ((Nat.log 2 n : ℤ) + 1) = ((Nat.log 2 n + 1 : ℕ) : ℤ) := by push_cast; ring
        rw [this, zpow_natCast]
        exact_mod_cast hhi)
      (by omega)
      (by
        have : (n : ℚ) / 2 ^ ((Nat.log 2 n : ℤ) - 52)
            = (((n * 2 ^ (52 - Nat.log 2 n) : ℕ) : ℤ) : ℚ) := by
          rw [div_eq_iff (ne_of_gt hp0), hval]
        rw [this, sub_self, abs_zero]
        norm_num)
      (by
        rw [hval, abs_of_pos hnq]
        have : (n : ℚ) < 2 ^ 53 := by exact_mod_cast hn
        refine lt_trans this ?_
        norm_num), hval]

theorem binary64_zero : binary64 0 = Dbl.fin 0 := by
  simp [binary64]

theorem binary64_neg_one : binary64 (-1) = Dbl.fin (-1) := by
  unfold binary64
  rw [if_neg (by norm_num)]
  have hlog : Int.log 2 |(-1 : ℚ)| = 0 := by
    rw [abs_neg, abs_one]
    exact Int.log_one_right 2
  simp only [hlog]
  rw [max_eq_left (by norm_num),
    roundHalfEven_eq_of_abs_lt _ (-4503599627370496) (by norm_num [abs_lt]),
    if_neg (by norm_num [abs_lt])]
  norm_num

/-- The small integers and the quotients the scenario image needs. -/
theorem binary64_values :
    binary64 1 = Dbl.fin 1 ∧ binary64 3 = Dbl.fin 3 ∧ binary64 4 = Dbl.fin 4
      ∧ binary64 255 = Dbl.fin 255 ∧ binary64 765 = Dbl.fin 765
      ∧ binary64 (765 / 4) = Dbl.fin (765 / 4)
      ∧ binary64 (195075 / 4) = Dbl.fin (195075 / 4) := by
  refine ⟨?_, ?_, ?_, ?_, ?_, ?_, ?_⟩
  · rw [binary64_eq 1 0 (2 ^ 52) (by norm_num) (by norm_num) (by norm_num) (by norm_num)
      (by norm_num [abs_lt]) (by norm_num [abs_lt])]
    norm_num
  · rw [binary64_eq 3 1 (3 * 2 ^ 51) (by norm_num) (by norm_num) (by norm_num) (by norm_num)
      (by norm_num [abs_lt]) (by norm_num [abs_lt])]
    norm_num
  · rw [binary64_eq 4 2 (2 ^ 52) (by norm_num) (by norm_num) (by norm_num) (by norm_num)
      (by norm_num [abs_lt]) (by norm_num [abs_lt])]
    norm_num
  · rw [binary64_eq 255 7 (255 * 2 ^ 45) (by norm_num) (by norm_num) (by norm_num)
      (by norm_num) (by norm_num [abs_lt]) (by norm_num [abs_lt])]
    norm_num
  · rw [binary64_eq 765 9 (765 * 2 ^ 43) (by norm_num) (by norm_num) (by norm_num)
      (by norm_num) (by norm_num [abs_lt]) (by norm_num [abs_lt])]
    norm_num
  · rw [binary64_eq (765 / 4) 7 (765 * 2 ^ 43) (by norm_num) (by norm_num) (by norm_num)
      (by norm_num) (by norm_num [abs_lt]) (by norm_num [abs_lt])]
    norm_num
  · rw [binary64_eq (195075 / 4) 15 (195075 * 2 ^ 35) (by norm_num) (by norm_num)
      (by norm_num) (by norm_num) (by norm_num [abs_lt]) (by norm_num [abs_lt])]
    norm_num

/-! ## Arithmetic in the two environments -/

theorem exact_ofInt (u : ℤ) (i : ℤ) : Dbl.ofInt (FpEnv.exact u) i = Dbl.fin i := rfl

theorem exact_mul (u : ℤ) (a b : ℚ) :
    Dbl.mul (FpEnv.exact u) (Dbl.fin a) (Dbl.fin b) = Dbl.fin (a * b) := rfl

theorem exact_sub (u : ℤ) (a b : ℚ) :
    Dbl.sub (FpEnv.exact u) (Dbl.fin a) (Dbl.fin b) = Dbl.fin (a + -b) := rfl

theorem exact_div (u : ℤ) (a b : ℚ) (hb : b ≠ 0) :
    Dbl.div (FpEnv.exact u) (Dbl.fin a) (Dbl.fin b) = Dbl.fin (a / b) := by
  simp [Dbl.div, hb, FpEnv.exact]

theorem exact_div_zero (u : ℤ) :
    Dbl.div (FpEnv.exact u) (Dbl.fin 0) (Dbl.fin 0) = Dbl.nan := by
  simp [Dbl.div]

theorem ieee_ofInt (u : ℤ) (i : ℤ) : Dbl.ofInt (FpEnv.ieee u) i = binary64 i := rfl

theorem ieee_mul (u : ℤ) (a b : ℚ) :
    Dbl.mul (FpEnv.ieee u) (Dbl.fin a) (Dbl.fin b) = binary64 (a * b) := rfl

theorem ieee_sub (u : ℤ) (a b : ℚ) :
    Dbl.sub (FpEnv.ieee u) (Dbl.fin a) (Dbl.fin b) = binary64 (a + -b) := rfl

theorem ieee_div (u : ℤ) (a b : ℚ) (hb : b ≠ 0) :
    Dbl.div (FpEnv.ieee u) (Dbl.fin a) (Dbl.fin b) = binary64 (a / b) := by
  simp [Dbl.div, hb, FpEnv.ieee]

/-- The factor `L - 1` of the transform is 255 in binary64 arithmetic. -/
theorem ieee_levels (u : ℤ) :
    Dbl.sub (FpEnv.ieee u) (Dbl.fin (2 ^ (bitsPerPixel / bytesPerPixel)))
        (Dbl.ofInt (FpEnv.ieee u) 1) = Dbl.fin 255 := by
  have h1 : Dbl.ofInt (FpEnv.ieee u) 1 = Dbl.fin 1 := by
    show binary64 ((1 : ℤ) : ℚ) = _
    rw [Int.cast_one]
    exact binary64_values.1
  rw [h1, ieee_sub]
  have : ((2 : ℚ) ^ (bitsPerPixel / bytesPerPixel) + -1) = 255 := by
    norm_num [bitsPerPixel, bytesPerPixel]
  rw [this]
  exact binary64_values.2.2.2.1

theorem ieee_neg_one (u : ℤ) : Dbl.ofInt (FpEnv.ieee u) (-1) = Dbl.fin (-1) := by
  show binary64 ((-1 : ℤ) : ℚ) = _
  rw [Int.cast_neg, Int.cast_one]
  exact binary64_neg_one

/-- The conversion of a natural number below `2 ^ 53` to `double` is exact. -/
theorem ieee_ofNat (u : ℤ) (n : Nat) (hn : n < 2 ^ 53) :
    Dbl.ofInt (FpEnv.ieee u) (n : ℤ) = Dbl.fin n := by
  show binary64 (((n : ℤ)) : ℚ) = _
  rw [Int.cast_natCast]
  exact binary64_nat n hn

/-- Truncation toward zero is the floor on non-negative values. -/
theorem truncQ_of_nonneg (q : ℚ) (hq : 0 ≤ q) : Dbl.truncQ q = ⌊q⌋ := by
  unfold Dbl.truncQ
  rw [Rat.floor_def, Int.tdiv_eq_ediv (Rat.num_nonneg.2 hq) (Int.ofNat_nonneg _)]

theorem truncQ_neg (q : ℚ) : Dbl.truncQ (-q) = -Dbl.truncQ q := by
  unfold Dbl.truncQ
  rw [Rat.neg_num, Rat.neg_den, Int.neg_tdiv]

/-- The cast `(Uint8)v` of a double whose truncation `t` fits 8 bits is `t`. -/
theorem toUint8_of_truncQ (fp : FpEnv) (v : ℚ) (t : Nat) (ht : t ≤ 255)
    (htr : Dbl.truncQ v = (t : ℤ)) : Dbl.toUint8 fp (Dbl.fin v) = t := by
  show ((if 0 ≤ Dbl.truncQ v ∧ Dbl.truncQ v ≤ 255 then Dbl.truncQ v else fp.undefConv)
    % 256).toNat = t
  rw [htr, if_pos (by constructor <;> omega)]
  omega

/-- The cast chain `(Uint8)(int)x` on a value of `[0, 256)` is the floor: nothing wraps. -/
theorem newIntensity_of_range (fp : FpEnv) (histE : List Dbl) (r : Nat) (q : ℚ)
    (h : histE[r]? = some (Dbl.fin q)) (h0 : 0 ≤ q) (h256 : q < 256) :
    (newIntensity fp histE r : ℤ) = ⌊q⌋ ∧ newIntensity fp histE r ≤ 255 := by
  have hf0 : 0 ≤ ⌊q⌋ := Int.floor_nonneg.2 h0
  have hf1 : ⌊q⌋ < 256 := by
    have : ⌊q⌋ < ((256 : ℤ)) := Int.floor_lt.2 (by exact_mod_cast h256)
    exact this
  have e : newIntensity fp histE r = ⌊q⌋.toNat := by
    unfold newIntensity Dbl.toInt Dbl.truncTo
    rw [List.getD_eq_getElem?_getD, h]
    simp only [Option.getD_some, truncQ_of_nonneg q h0]
    rw [if_pos (by constructor <;> omega)]
    congr 1
    omega
  rw [e]
  constructor
  · exact Int.toNat_of_nonneg hf0
  · omega

/-! ## The cumulative sums -/

theorem countP_le_succ (l : List Pixel) (k : Nat) :
    (l.countP fun p => decide (p.r ≤ k + 1))
      = (l.countP fun p => decide (p.r ≤ k)) + l.countP fun p => p.r == k + 1 := by
  induction l with
  | nil => rfl
  | cons p l ih =>
    simp only [List.countP_cons, ih]
    by_cases h1 : p.r ≤ k
    · have h2 : p.r ≤ k + 1 := by omega
      have h3 : ¬ p.r = k + 1 := by omega
      simp [h1, h2, h3]
      omega
    · by_cases h3 : p.r = k + 1
      · simp [h3]
        omega
      · have h2 : ¬ p.r ≤ k + 1 := by omega
        simp [h1, h2, h3]

theorem countP_le_zero (l : List Pixel) :
    (l.countP fun p => decide (p.r ≤ 0)) = l.countP fun p => p.r == 0 := by
  apply List.countP_congr
  intro p _
  simp

/-- The inner loop over the histogram of the image computes the cumulative count. -/
theorem soma_countLoop (s : Surface) (hlen : s.pixels.length = s.w * s.h) (k : Nat)
    (hk : k < 256) : soma (countLoop s) k = cum s k := by
  have hget : ∀ v, v < 256 → (countLoop s).getD v 0 = s.pixels.countP fun p => p.r == v := by
    intro v hv
    unfold countLoop
    rw [List.getD_eq_getElem?_getD,
      getElem?_countUpTo s _ (by rw [hlen]; exact Nat.le_refl _), if_pos hv,
      Surface.pixelCount, ← hlen, List.take_length]
    rfl
  unfold soma cum
  induction k with
  | zero => simp only [forLoop, Nat.zero_add, hget 0 hk, countP_le_zero]
  | succ k ih =>
    rw [forLoop_succ, ih (by omega), hget (k + 1) hk, countP_le_succ]

theorem cum_mono (s : Surface) {a b : Nat} (h : a ≤ b) : cum s a ≤ cum s b := by
  unfold cum
  apply List.countP_mono_left
  intro p _ hp
  simp only [decide_eq_true_eq] at hp ⊢
  omega

theorem cum_le_length (s : Surface) (v : Nat) : cum s v ≤ s.pixels.length :=
  List.countP_le_length _

/-! ## The transform table -/

theorem length_cdfUpTo (fp : FpEnv) (L : Dbl) (cur : List Nat) (M N n : Nat) :
    (cdfUpTo fp L cur M N n).1.length = 256 := by
  induction n with
  | zero => simp only [cdfUpTo, forLoop, List.length_replicate]
  | succ n ih =>
    unfold cdfUpTo at ih ⊢
    rw [forLoop_succ]
    simp only [List.length_set]
    exact ih

/-- The search loop changes nothing when no entry exceeds the current maximum. -/
theorem maxLoop_unchanged (histE : List Dbl) (m : Dbl) (n : Nat)
    (h : ∀ i, i < n → Dbl.gt (histE.getD i default) m = false) :
    forLoop (fun i m => if Dbl.gt (histE.getD i default) m then histE.getD i default else m)
      n m = m := by
  induction n with
  | zero => rfl
  | succ n ih =>
    rw [forLoop_succ, ih (fun i hi => h i (by omega)), h n (by omega)]
    rfl

/-- The rescale loop applies the rescaling to each of the 256 entries. -/
theorem normalizeLoop_eq_map (fp : FpEnv) (histE : List Dbl) (m : Dbl)
    (hlen : histE.length = 256) :
    normalizeLoop fp histE m
      = histE.map fun x => Dbl.div fp (Dbl.mul fp x (Dbl.ofInt fp 255)) m := by
  unfold normalizeLoop
  rw [← hlen]
  exact forLoop_set_eq_map (fun x => Dbl.div fp (Dbl.mul fp x (Dbl.ofInt fp 255)) m) histE

/-- The state of the first loop after `n` rounds, in any floating-point environment in which
round `k` computes the finite entry `f k`, for a non-negative and non-decreasing `f`: the
visited entries are the `f k`, and `maxValue` is the last of them. -/
theorem cdfUpTo_of_entries (fp : FpEnv) (L : Dbl) (cur : List Nat) (M N : Nat) (f : Nat → ℚ)
    (hneg : Dbl.ofInt fp (-1) = Dbl.fin (-1))
    (hentry : ∀ k, k < 255 →
      Dbl.div fp (Dbl.mul fp (Dbl.sub fp L (Dbl.ofInt fp 1)) (Dbl.ofInt fp (soma cur k)))
        (Dbl.ofInt fp ((M * N : Nat) : ℤ)) = Dbl.fin (f k))
    (hf0 : 0 ≤ f 0) (hmono : ∀ a b, a ≤ b → b < 255 → f a ≤ f b) (n : Nat) (hn : n ≤ 255) :
    (∀ j, (cdfUpTo fp L cur M N n).1[j]?
        = if j < 256 then some (Dbl.fin (if j < n then f j else 0)) else none)
      ∧ (cdfUpTo fp L cur M N n).2 = Dbl.fin (if n = 0 then -1 else f (n - 1)) := by
  induction n with
  | zero =>
    constructor
    · intro j
      simp only [cdfUpTo, forLoop, List.getElem?_replicate, Nat.not_lt_zero, if_false]
    · show Dbl.ofInt fp (-1) = _
      rw [hneg]
      simp
  | succ n ih =>
    obtain ⟨ih1, ih2⟩ := ih (by omega)
    have hlen1 := length_cdfUpTo fp L cur M N n
    have he := hentry n (by omega)
    unfold cdfUpTo at ih1 ih2 hlen1 ⊢
    rw [forLoop_succ]
    simp only []
    rw [he]
    constructor
    · intro j
      rw [List.getElem?_set, hlen1, ih1]
      by_cases hnj : n = j
      · subst hnj
        have h1 : n < 256 := by omega
        simp [h1]
      · rw [if_neg hnj]
        by_cases hj : j < 256
        · by_cases h1 : j < n
          · have : j < n + 1 := by omega
            simp [h1, this, hj]
          · have : ¬ j < n + 1 := by omega
            simp [h1, this, hj]
        · simp [hj]
    · rw [ih2]
      simp only [Dbl.gt, Nat.add_sub_cancel, Nat.succ_ne_zero, if_false]
      by_cases h0 : n = 0
      · subst h0
        have : (-1 : ℚ) < f 0 := lt_of_lt_of_le (by norm_num) hf0
        simp [this]
      · rw [if_neg h0]
        have hm : f (n - 1) ≤ f n := hmono _ _ (by omega) (by omega)
        by_cases hlt : f (n - 1) < f n
        · simp [hlt]
        · have : f (n - 1) = f n := le_antisymm hm (not_lt.1 hlt)
          simp [hlt, this]

/-- The table and its maximum in any floating-point environment in which the first loop
computes the finite entries `f k`, for a non-negative and non-decreasing `f`: `maxValue` is
the entry of level 254, and the entry of level 255, which the first loop does not visit, is
rescaled from its initial 0. -/
theorem table_of_entries (fp : FpEnv) (cur : List Nat) (s : Surface) (f : Nat → ℚ)
    (hneg : Dbl.ofInt fp (-1) = Dbl.fin (-1))
    (hentry : ∀ k, k < 255 →
      Dbl.div fp
        (Dbl.mul fp
          (Dbl.sub fp (Dbl.fin (2 ^ (bitsPerPixel / bytesPerPixel))) (Dbl.ofInt fp 1))
          (Dbl.ofInt fp (soma cur k)))
        (Dbl.ofInt fp ((s.h * s.w : Nat) : ℤ)) = Dbl.fin (f k))
    (hf0 : 0 ≤ f 0) (hmono : ∀ a b, a ≤ b → b < 255 → f a ≤ f b) :
    maxValue fp cur s = Dbl.fin (f 254)
      ∧ ∀ j, j < 256 →
          (equalizationTable fp cur s)[j]?
            = some (Dbl.div fp
                (Dbl.mul fp (Dbl.fin (if j < 255 then f j else 0)) (Dbl.ofInt fp 255))
                (Dbl.fin (f 254))) := by
  obtain ⟨h1, h2⟩ := cdfUpTo_of_entries fp _ cur s.h s.w f hneg hentry hf0 hmono 255 (le_refl _)
  have hl := length_cdfUpTo fp (Dbl.fin (2 ^ (bitsPerPixel / bytesPerPixel))) cur s.h s.w 255
  have hmax : maxValue fp cur s = Dbl.fin (f 254) := by
    unfold maxValue maxLoop cdfLoop
    simp only []
    rw [maxLoop_unchanged, h2]
    · simp
    · intro i hi
      rw [List.getD_eq_getElem?_getD, h1 i, if_pos hi, h2]
      simp only [Option.getD_some, Dbl.gt, decide_eq_false_iff_not, not_lt]
      simp only [show (255 : ℕ) ≠ 0 by decide, if_false]
      by_cases hj : i < 255
      · rw [if_pos hj]
        exact hmono _ _ (by omega) (by decide)
      · rw [if_neg hj]
        exact le_trans hf0 (hmono _ _ (by omega) (by decide))
  refine ⟨hmax, ?_⟩
  intro j hj
  have : equalizationTable fp cur s
      = normalizeLoop fp
          (cdfUpTo fp (Dbl.fin (2 ^ (bitsPerPixel / bytesPerPixel))) cur s.h s.w 255).1
          (maxValue fp cur s) := rfl
  rw [this, hmax, normalizeLoop_eq_map _ _ _ hl, List.getElem?_map, h1 j, if_pos hj]
  rfl

/-- The state of the first loop after `n` rounds when every round computes NaN: the visited
entries are NaN and `maxValue` keeps its initial value. -/
theorem cdfUpTo_of_nan (fp : FpEnv) (L : Dbl) (cur : List Nat) (M N : Nat)
    (hentry : ∀ k, k < 255 →
      Dbl.div fp (Dbl.mul fp (Dbl.sub fp L (Dbl.ofInt fp 1)) (Dbl.ofInt fp (soma cur k)))
        (Dbl.ofInt fp ((M * N : Nat) : ℤ)) = Dbl.nan)
    (n : Nat) (hn : n ≤ 255) :
    (∀ j, (cdfUpTo fp L cur M N n).1[j]?
        = if j < 256 then some (if j < n then Dbl.nan else Dbl.fin 0) else none)
      ∧ (cdfUpTo fp L cur M N n).2 = Dbl.ofInt fp (-1) := by
  induction n with
  | zero =>
    constructor
    · intro j
      simp only [cdfUpTo, forLoop, List.getElem?_replicate, Nat.not_lt_zero, if_false]
    · rfl
  | succ n ih =>
    obtain ⟨ih1, ih2⟩ := ih (by omega)
    have hlen1 := length_cdfUpTo fp L cur M N n
    have he := hentry n (by omega)
    unfold cdfUpTo at ih1 ih2 hlen1 ⊢
    rw [forLoop_succ]
    simp only []
    rw [he]
    constructor
    · intro j
      rw [List.getElem?_set, hlen1, ih1]
      by_cases hnj : n = j
      · subst hnj
        have h1 : n < 256 := by omega
        simp [h1]
      · rw [if_neg hnj]
        by_cases hj : j < 256
        · by_cases h1 : j < n
          · have : j < n + 1 := by omega
            simp [h1, this, hj]
          · have : ¬ j < n + 1 := by omega
            simp [h1, this, hj]
        · simp [hj]
    · rw [ih2]
      rfl

/-- The table and its maximum when every round of the first loop computes NaN: the search
loop finds the maximum 0 at level 255, and the rescale loop divides by it. -/
theorem table_of_nan (fp : FpEnv) (cur : List Nat) (s : Surface)
    (hneg : Dbl.ofInt fp (-1) = Dbl.fin (-1))
    (hentry : ∀ k, k < 255 →
      Dbl.div fp
        (Dbl.mul fp
          (Dbl.sub fp (Dbl.fin (2 ^ (bitsPerPixel / bytesPerPixel))) (Dbl.ofInt fp 1))
          (Dbl.ofInt fp (soma cur k)))
        (Dbl.ofInt fp ((s.h * s.w : Nat) : ℤ)) = Dbl.nan) :
    maxValue fp cur s = Dbl.fin 0
      ∧ ∀ j, j < 256 →
          (equalizationTable fp cur s)[j]?
            = some (Dbl.div fp
                (Dbl.mul fp (if j < 255 then Dbl.nan else Dbl.fin 0) (Dbl.ofInt fp 255))
                (Dbl.fin 0)) := by
  obtain ⟨h1, h2⟩ := cdfUpTo_of_nan fp _ cur s.h s.w hentry 255 (le_refl _)
  have hl := length_cdfUpTo fp (Dbl.fin (2 ^ (bitsPerPixel / bytesPerPixel))) cur s.h s.w 255
  have hmax : maxValue fp cur s = Dbl.fin 0 := by
    unfold maxValue maxLoop cdfLoop
    simp only []
    rw [forLoop_succ, maxLoop_unchanged, h2, hneg]
    · rw [List.getD_eq_getElem?_getD, h1 255]
      simp [Dbl.gt]
    · intro j hj
      rw [List.getD_eq_getElem?_getD, h1 j, if_pos (by omega), if_pos hj]
      rfl
  refine ⟨hmax, ?_⟩
  intro j hj
  have : equalizationTable fp cur s
      = normalizeLoop fp
          (cdfUpTo fp (Dbl.fin (2 ^ (bitsPerPixel / bytesPerPixel))) cur s.h s.w 255).1
          (maxValue fp cur s) := rfl
  rw [this, hmax, normalizeLoop_eq_map _ _ _ hl, List.getElem?_map, h1 j, if_pos hj]
  rfl

/-- The state of the first loop after `n` rounds, in any floating-point environment in which
round `k` computes the finite entry `f k`: the visited entries are the `f k`, and `maxValue`
is at least each of them and is one of them (or the initial -1 before the first round). -/
theorem cdfUpTo_bound (fp : FpEnv) (L : Dbl) (cur : List Nat) (M N : Nat) (f : Nat → ℚ)
    (hneg : Dbl.ofInt fp (-1) = Dbl.fin (-1))
    (hentry : ∀ k, k < 255 →
      Dbl.div fp (Dbl.mul fp (Dbl.sub fp L (Dbl.ofInt fp 1)) (Dbl.ofInt fp (soma cur k)))
        (Dbl.ofInt fp ((M * N : Nat) : ℤ)) = Dbl.fin (f k))
    (hf0 : ∀ k, k < 255 → 0 ≤ f k) (n : Nat) (hn : n ≤ 255) :
    (∀ j, (cdfUpTo fp L cur M N n).1[j]?
        = if j < 256 then some (Dbl.fin (if j < n then f j else 0)) else none)
      ∧ ∃ m, (cdfUpTo fp L cur M N n).2 = Dbl.fin m ∧ (∀ k, k < n → f k ≤ m)
          ∧ ((n = 0 ∧ m = -1) ∨ ∃ k, k < n ∧ m = f k) := by
  induction n with
  | zero =>
    constructor
    · intro j
      simp only [cdfUpTo, forLoop, List.getElem?_replicate, Nat.not_lt_zero, if_false]
    · refine ⟨-1, ?_, fun k hk => absurd hk (Nat.not_lt_zero k), Or.inl ⟨rfl, rfl⟩⟩
      show Dbl.ofInt fp (-1) = _
      rw [hneg]
  | succ n ih =>
    obtain ⟨ih1, m, ih2, ih3, ih4⟩ := ih (by omega)
    have hlen1 := length_cdfUpTo fp L cur M N n
    have he := hentry n (by omega)
    unfold cdfUpTo at ih1 ih2 hlen1 ⊢
    rw [forLoop_succ]
    simp only []
    rw [he]
    constructor
    · intro j
      rw [List.getElem?_set, hlen1, ih1]
      by_cases hnj : n = j
      · subst hnj
        have h1 : n < 256 := by omega
        simp [h1]
      · rw [if_neg hnj]
        by_cases hj : j < 256
        · by_cases h1 : j < n
          · have : j < n + 1 := by omega
            simp [h1, this, hj]
          · have : ¬ j < n + 1 := by omega
            simp [h1, this, hj]
        · simp [hj]
    · rw [ih2]
      simp only [Dbl.gt]
      by_cases hlt : m < f n
      · refine ⟨f n, by simp [hlt], ?_, Or.inr ⟨n, by omega, rfl⟩⟩
        intro k hk
        by_cases hkn : k = n
        · rw [hkn]
        · exact le_trans (ih3 k (by omega)) (le_of_lt hlt)
      · refine ⟨m, by simp [hlt], ?_, ?_⟩
        · intro k hk
          by_cases hkn : k = n
          · rw [hkn]; exact not_lt.1 hlt
          · exact ih3 k (by omega)
        · rcases ih4 with ⟨h0, hm⟩ | ⟨k, hk, hm⟩
          · exfalso
            have := hf0 n (by omega)
            rw [hm] at hlt
            exact hlt (lt_of_lt_of_le (by norm_num) this)
          · exact Or.inr ⟨k, by omega, hm⟩

/-- The table and its maximum in any floating-point environment in which the first loop
computes the finite non-negative entries `f k`: `maxValue` is the largest of them, and each
entry of the table is its first-loop value (the initial 0 at level 255) times 255 over
`maxValue`. -/
theorem table_bound (fp : FpEnv) (cur : List Nat) (s : Surface) (f : Nat → ℚ)
    (hneg : Dbl.ofInt fp (-1) = Dbl.fin (-1))
    (hentry : ∀ k, k < 255 →
      Dbl.div fp
        (Dbl.mul fp
          (Dbl.sub fp (Dbl.fin (2 ^ (bitsPerPixel / bytesPerPixel))) (Dbl.ofInt fp 1))
          (Dbl.ofInt fp (soma cur k)))
        (Dbl.ofInt fp ((s.h * s.w : Nat) : ℤ)) = Dbl.fin (f k))
    (hf0 : ∀ k, k < 255 → 0 ≤ f k) :
    ∃ m, maxValue fp cur s = Dbl.fin m ∧ (∀ k, k < 255 → f k ≤ m) ∧ (∃ k, k < 255 ∧ m = f k)
      ∧ ∀ j, j < 256 →
          (equalizationTable fp cur s)[j]?
            = some (Dbl.div fp
                (Dbl.mul fp (Dbl.fin (if j < 255 then f j else 0)) (Dbl.ofInt fp 255))
                (Dbl.fin m)) := by
  obtain ⟨h1, m, h2, h3, h4⟩ := cdfUpTo_bound fp _ cur s.h s.w f hneg hentry hf0 255 (le_refl _)
  have hl := length_cdfUpTo fp (Dbl.fin (2 ^ (bitsPerPixel / bytesPerPixel))) cur s.h s.w 255
  have h5 : ∃ k, k < 255 ∧ m = f k := by
    rcases h4 with ⟨h0, _⟩ | h
    · exact absurd h0 (by decide)
    · exact h
  have hm0 : 0 ≤ m := by
    obtain ⟨k, hk, hm⟩ := h5
    rw [hm]
    exact hf0 k hk
  have hmax : maxValue fp cur s = Dbl.fin m := by
    unfold maxValue maxLoop cdfLoop
    simp only []
    rw [maxLoop_unchanged, h2]
    intro i hi
    rw [List.getD_eq_getElem?_getD, h1 i, if_pos hi, h2]
    simp only [Option.getD_some, Dbl.gt, decide_eq_false_iff_not, not_lt]
    by_cases hj : i < 255
    · rw [if_pos hj]
      exact h3 i hj
    · rw [if_neg hj]
      exact hm0
  refine ⟨m, hmax, h3, h5, ?_⟩
  intro j hj
  have : equalizationTable fp cur s
      = normalizeLoop fp
          (cdfUpTo fp (Dbl.fin (2 ^ (bitsPerPixel / bytesPerPixel))) cur s.h s.w 255).1
          (maxValue fp cur s) := rfl
  rw [this, hmax, normalizeLoop_eq_map _ _ _ hl, List.getElem?_map, h1 j, if_pos hj]
  rfl

/-- The entry the first loop computes at level `k`, in exact arithmetic on a non-empty image. -/
theorem exact_entry (u : ℤ) (s : Surface) (hlen : s.pixels.length = s.w * s.h)
    (hne : 0 < s.w * s.h) (k : Nat) (hk : k < 255) :
    Dbl.div (FpEnv.exact u)
        (Dbl.mul (FpEnv.exact u)
          (Dbl.sub (FpEnv.exact u) (Dbl.fin (2 ^ (bitsPerPixel / bytesPerPixel)))
            (Dbl.ofInt (FpEnv.exact u) 1))
          (Dbl.ofInt (FpEnv.exact u) (soma (countLoop s) k)))
        (Dbl.ofInt (FpEnv.exact u) ((s.h * s.w : Nat) : ℤ))
      = Dbl.fin (rawEntry s k) := by
  have hT : (((s.h * s.w : Nat) : ℤ) : ℚ) ≠ 0 := by
    have : s.h * s.w ≠ 0 := by rw [Nat.mul_comm]; omega
    exact_mod_cast this
  rw [exact_ofInt, exact_ofInt, exact_ofInt, exact_sub, exact_mul, exact_div _ _ _ hT,
    soma_countLoop s hlen k (by omega)]
  unfold rawEntry
  rw [if_pos hk]
  congr 1
  norm_num [bitsPerPixel, bytesPerPixel]

theorem rawEntry_nonneg (s : Surface) (v : Nat) : 0 ≤ rawEntry s v := by
  unfold rawEntry
  split
  · positivity
  · exact le_refl _

theorem rawEntry_mono (s : Surface) {a b : Nat} (h : a ≤ b) (hb : b < 255) :
    rawEntry s a ≤ rawEntry s b := by
  unfold rawEntry
  rw [if_pos (by omega), if_pos hb]
  have : (cum s a : ℚ) ≤ cum s b := by exact_mod_cast cum_mono s h
  gcongr

theorem rawEntry_le_254 (s : Surface) (v : Nat) : rawEntry s v ≤ rawEntry s 254 := by
  by_cases hv : v < 255
  · exact rawEntry_mono s (by omega) (by decide)
  · have : rawEntry s v = 0 := by unfold rawEntry; rw [if_neg hv]
    rw [this]
    exact rawEntry_nonneg s 254

/-- In exact arithmetic, on a non-empty image, `maxValue` is the entry of level 254 and every
entry of the table is the raw entry times 255 over that maximum. -/
theorem equalizationTable_exact (u : ℤ) (s : Surface) (hlen : s.pixels.length = s.w * s.h)
    (hne : 0 < s.w * s.h) :
    maxValue (FpEnv.exact u) (countLoop s) s = Dbl.fin (rawEntry s 254)
      ∧ ∀ j, j < 256 →
          (equalizationTable (FpEnv.exact u) (countLoop s) s)[j]?
            = some (Dbl.div (FpEnv.exact u) (Dbl.fin (rawEntry s j * 255))
                (Dbl.fin (rawEntry s 254))) := by
  obtain ⟨h1, h2⟩ := table_of_entries (FpEnv.exact u) (countLoop s) s (rawEntry s)
    (by rw [exact_ofInt]; simp) (exact_entry u s hlen hne) (rawEntry_nonneg s 0)
    (fun a b hab hb => rawEntry_mono s hab hb)
  refine ⟨h1, ?_⟩
  intro j hj
  rw [h2 j hj, exact_ofInt, exact_mul]
  have : (if j < 255 then rawEntry s j else 0) = rawEntry s j := by
    by_cases h : j < 255
    · rw [if_pos h]
    · rw [if_neg h]; unfold rawEntry; rw [if_neg h]
  rw [this]
  norm_num

/-- The entry the first loop computes at level `k`, in binary64 arithmetic on a non-empty
image: the conversions and the product are exact, the quotient is rounded. -/
theorem ieee_entry (u : ℤ) (s : Surface) (hwf : s.WF) (hne : 0 < s.w * s.h) (k : Nat)
    (hk : k < 255) :
    Dbl.div (FpEnv.ieee u)
        (Dbl.mul (FpEnv.ieee u)
          (Dbl.sub (FpEnv.ieee u) (Dbl.fin (2 ^ (bitsPerPixel / bytesPerPixel)))
            (Dbl.ofInt (FpEnv.ieee u) 1))
          (Dbl.ofInt (FpEnv.ieee u) (soma (countLoop s) k)))
        (Dbl.ofInt (FpEnv.ieee u) ((s.h * s.w : Nat) : ℤ))
      = binary64 (rawEntry s k) := by
  have hT : s.h * s.w < 2 ^ 31 := by rw [Nat.mul_comm]; exact hwf.2.1
  have hc : cum s k ≤ s.h * s.w := by
    have := cum_le_length s k
    rw [hwf.1, Nat.mul_comm] at this
    exact this
  have hTq : ((s.h * s.w : Nat) : ℚ) ≠ 0 := by
    have : s.h * s.w ≠ 0 := by rw [Nat.mul_comm]; omega
    exact_mod_cast this
  rw [ieee_levels, soma_countLoop s hwf.1 k (by omega), ieee_ofNat u _ (by omega),
    ieee_ofNat u _ (by omega), ieee_mul]
  have e : (255 : ℚ) * (cum s k : ℚ) = ((255 * cum s k : Nat) : ℚ) := by push_cast; ring
  rw [e, binary64_nat _ (by omega), ieee_div _ _ _ hTq]
  unfold rawEntry
  rw [if_pos hk]
  push_cast
  rfl

/-- The binary64 entry of a level: a number of `[0, 256]`, zero when no pixel lies at or
below the level and at least `2 ^ (-24)` otherwise. -/
theorem ieeeEntry_spec (s : Surface) (hwf : s.WF) (hne : 0 < s.w * s.h) (k : Nat)
    (hk : k < 255) :
    binary64 (rawEntry s k) = Dbl.fin (ieeeEntry s k)
      ∧ 0 ≤ ieeeEntry s k ∧ ieeeEntry s k ≤ 256
      ∧ (cum s k = 0 → ieeeEntry s k = 0)
      ∧ (0 < cum s k → 1 / 2 ^ 24 ≤ ieeeEntry s k) := by
  have hT : s.h * s.w < 2 ^ 31 := by rw [Nat.mul_comm]; exact hwf.2.1
  have hT0 : 0 < s.h * s.w := by rw [Nat.mul_comm]; exact hne
  have hc : cum s k ≤ s.h * s.w := by
    have := cum_le_length s k
    rw [hwf.1, Nat.mul_comm] at this
    exact this
  have hTq : (0 : ℚ) < ((s.h * s.w : Nat) : ℚ) := by exact_mod_cast hT0
  have hTq2 : ((s.h * s.w : Nat) : ℚ) ≤ 2 ^ 31 := by exact_mod_cast le_of_lt hT
  have hcq : (cum s k : ℚ) ≤ ((s.h * s.w : Nat) : ℚ) := by exact_mod_cast hc
  have hraw : rawEntry s k = 255 * (cum s k : ℚ) / ((s.h * s.w : Nat) : ℚ) := by
    unfold rawEntry
    rw [if_pos hk]
  have hr0 : 0 ≤ rawEntry s k := rawEntry_nonneg s k
  have hr1 : rawEntry s k ≤ 255 := by
    rw [hraw, div_le_iff₀ hTq]
    have : (0 : ℚ) ≤ (cum s k : ℚ) := Nat.cast_nonneg _
    nlinarith
  obtain ⟨y, hy, hnear⟩ := binary64_near (rawEntry s k) (by
    rw [abs_of_nonneg hr0]; linarith)
  have hv : ieeeEntry s k = y := by
    unfold ieeeEntry
    rw [hy]
    rfl
  rw [hv]
  rw [abs_le] at hnear
  have hd : (1 : ℚ) / 2 ^ 46 ≤ 1 := by norm_num
  refine ⟨hy, binary64_nonneg _ _ hr0 hy, by linarith, ?_, ?_⟩
  · intro h0
    have : rawEntry s k = 0 := by rw [hraw, h0]; simp
    rw [this, binary64_zero] at hy
    injection hy with hy
    exact hy.symm
  · intro hpos
    have h1 : (1 : ℚ) ≤ cum s k := by exact_mod_cast hpos
    have h2 : (255 : ℚ) / 2 ^ 31 ≤ rawEntry s k := by
      rw [hraw, div_le_div_iff₀ (by norm_num) hTq]
      nlinarith
    have h3 : (1 : ℚ) / 2 ^ 24 + 1 / 2 ^ 46 ≤ 255 / 2 ^ 31 := by norm_num
    linarith

/-- The rescale `(h * 255) / max` of one entry in binary64 arithmetic, for `0 <= h <= max`:
a number of `[0, 255 + 2 ^ (-45)]`. -/
theorem rescale_ieee (u : ℤ) (h M : ℚ) (h0 : 0 ≤ h) (hM : h ≤ M) (hpos : 0 < M)
    (hM2 : M ≤ 256) (hh : h = 0 ∨ 1 / 2 ^ 24 ≤ h) :
    ∃ q, Dbl.div (FpEnv.ieee u)
          (Dbl.mul (FpEnv.ieee u) (Dbl.fin h) (Dbl.ofInt (FpEnv.ieee u) 255)) (Dbl.fin M)
        = Dbl.fin q ∧ 0 ≤ q ∧ q ≤ 255 + 1 / 2 ^ 45 := by
  have e255 : Dbl.ofInt (FpEnv.ieee u) 255 = Dbl.fin 255 := by
    have := ieee_ofNat u 255 (by norm_num)
    simpa using this
  rw [e255, ieee_mul]
  rcases hh with hz | hlow
  · subst hz
    rw [zero_mul, binary64_zero, ieee_div _ _ _ (ne_of_gt hpos), zero_div, binary64_zero]
    exact ⟨0, rfl, le_refl _, by norm_num⟩
  · have hx0 : (0 : ℚ) ≤ h * 255 := by positivity
    obtain ⟨P, hP, hrel⟩ := binary64_rel (h * 255) (by
        have : (1 : ℚ) / 2 ^ 30 ≤ 1 / 2 ^ 24 * 255 := by norm_num
        nlinarith) (by
        have : (256 : ℚ) * 255 ≤ 2 ^ 30 := by norm_num
        nlinarith)
    have hP0 : 0 ≤ P := binary64_nonneg _ _ hx0 hP
    rw [hP, ieee_div _ _ _ (ne_of_gt hpos)]
    rw [abs_le] at hrel
    have hPle : P ≤ M * 255 * (1 + 1 / 2 ^ 53) := by
      have h1 : P ≤ h * 255 * (1 + 1 / 2 ^ 53) := by
        have : h * 255 * (1 + 1 / 2 ^ 53) = h * 255 + h * 255 / 2 ^ 53 := by ring
        linarith
      have h2 : h * 255 * (1 + 1 / 2 ^ 53) ≤ M * 255 * (1 + 1 / 2 ^ 53) := by
        have : (0 : ℚ) ≤ 255 * (1 + 1 / 2 ^ 53) := by norm_num
        nlinarith
      linarith
    have hq1 : P / M ≤ 255 + 1 / 2 ^ 45 := by
      rw [div_le_iff₀ hpos]
      have : M * 255 * (1 + 1 / 2 ^ 53) ≤ (255 + 1 / 2 ^ 45) * M := by
        have : (255 : ℚ) * (1 + 1 / 2 ^ 53) ≤ 255 + 1 / 2 ^ 45 := by norm_num
        nlinarith
      linarith
    exact binary64_le_top (P / M) (div_nonneg hP0 (le_of_lt hpos)) hq1

theorem rawEntry_254_pos_of_cum (s : Surface) (hne : 0 < s.w * s.h) (hc : 0 < cum s 254) :
    0 < rawEntry s 254 := by
  have hT : 0 < s.h * s.w := by rw [Nat.mul_comm]; exact hne
  unfold rawEntry
  rw [if_pos (by decide)]
  have h1 : (0 : ℚ) < cum s 254 := by exact_mod_cast hc
  have h2 : (0 : ℚ) < ((s.h * s.w : Nat) : ℚ) := by exact_mod_cast hT
  positivity

/-- In exact arithmetic, on a non-empty image with a pixel at or below level 254, each entry
of the rescaled table is a number of `[0, 255]`. -/
theorem table_exact_in_range (u : ℤ) (s : Surface) (hlen : s.pixels.length = s.w * s.h)
    (hne : 0 < s.w * s.h) (hc : 0 < cum s 254) (i : Nat) (hi : i < 256) :
    ∃ q, (equalizationTable (FpEnv.exact u) (countLoop s) s)[i]? = some (Dbl.fin q)
      ∧ 0 ≤ q ∧ q ≤ 255 := by
  obtain ⟨_, h2⟩ := equalizationTable_exact u s hlen hne
  have hpos := rawEntry_254_pos_of_cum s hne hc
  have hq := h2 i hi
  rw [exact_div _ _ _ (ne_of_gt hpos)] at hq
  refine ⟨_, hq, ?_, ?_⟩
  · exact div_nonneg (mul_nonneg (rawEntry_nonneg s i) (by norm_num)) (rawEntry_nonneg s 254)
  · rw [div_le_iff₀ hpos, mul_comm]
    exact mul_le_mul_of_nonneg_left (rawEntry_le_254 s i) (by norm_num)

/-- In binary64 arithmetic, on a non-empty image: `maxValue` is the largest first-loop entry,
and when it is positive each entry of the rescaled table is a number of
`[0, 255 + 2 ^ (-45)]`. -/
theorem table_ieee_in_range (u : ℤ) (s : Surface) (hwf : s.WF) (hne : 0 < s.w * s.h) :
    ∃ m, maxValue (FpEnv.ieee u) (countLoop s) s = Dbl.fin m
      ∧ (∀ k, k < 255 → ieeeEntry s k ≤ m) ∧ (∃ k, k < 255 ∧ m = ieeeEntry s k)
      ∧ (0 < m → ∀ i, i < 256 → ∃ q,
          (equalizationTable (FpEnv.ieee u) (countLoop s) s)[i]? = some (Dbl.fin q)
            ∧ 0 ≤ q ∧ q ≤ 255 + 1 / 2 ^ 45) := by
  obtain ⟨m, h1, h2, h3, h4⟩ := table_bound (FpEnv.ieee u) (countLoop s) s (ieeeEntry s)
    (ieee_neg_one u)
    (fun k hk => by rw [ieee_entry u s hwf hne k hk]; exact (ieeeEntry_spec s hwf hne k hk).1)
    (fun k hk => (ieeeEntry_spec s hwf hne k hk).2.1)
  refine ⟨m, h1, h2, h3, ?_⟩
  intro hpos i hi
  have hm256 : m ≤ 256 := by
    obtain ⟨k, hk, hm⟩ := h3
    rw [hm]
    exact (ieeeEntry_spec s hwf hne k hk).2.2.1
  rw [h4 i hi]
  by_cases hj : i < 255
  · rw [if_pos hj]
    obtain ⟨_, e0, _, ez, ep⟩ := ieeeEntry_spec s hwf hne i hj
    have hh : ieeeEntry s i = 0 ∨ 1 / 2 ^ 24 ≤ ieeeEntry s i := by
      by_cases hc : cum s i = 0
      · exact Or.inl (ez hc)
      · exact Or.inr (ep (Nat.pos_of_ne_zero hc))
    obtain ⟨q, hq, q0, q1⟩ := rescale_ieee u (ieeeEntry s i) m e0 (h2 i hj) hpos hm256 hh
    exact ⟨q, by rw [hq], q0, q1⟩
  · rw [if_neg hj]
    obtain ⟨q, hq, q0, q1⟩ := rescale_ieee u 0 m (le_refl _) (le_of_lt hpos) hpos hm256
      (Or.inl rfl)
    exact ⟨q, by rw [hq], q0, q1⟩

/-- The pixel component of the last loop is the in-place rewriting loop. -/
theorem remapLoop_fst (fp : FpEnv) (histE : List Dbl) (n : Nat) (px : List Pixel) :
    (remapLoop fp histE n px).1
      = forLoop (fun i (l : List Pixel) => l.set i
          ((fun p : Pixel => (⟨newIntensity fp histE p.r, newIntensity fp histE p.r,
            newIntensity fp histE p.r, p.a⟩ : Pixel)) (l.getD i default))) n px := by
  induction n with
  | zero => rfl
  | succ n ih =>
    unfold remapLoop at ih ⊢
    rw [forLoop_succ, forLoop_succ, ← ih]

/-- What `histogramEqualization` does on a loaded, well-formed image that passes the check, in
any floating-point environment: every pixel of old intensity `r` gets the new intensity
`(Uint8)(int)histogramE[r]` in its three colour channels and keeps its alpha. -/
theorem histogramEqualization_eq (fp : FpEnv) (st : State) (s : Surface)
    (hs : st.surface = some s) (hwf : s.WF) (hcur : st.currentHistogram.length = 256)
    (hacc : checkGrayScale s = true) :
    histogramEqualization fp st
      = (Outcome.done,
          { surface := some { s with pixels := s.pixels.map fun p =>
              ⟨newIntensity fp (equalizationTable fp (countLoop s) s) p.r,
                newIntensity fp (equalizationTable fp (countLoop s) s) p.r,
                newIntensity fp (equalizationTable fp (countLoop s) s) p.r, p.a⟩ }
            currentHistogram :=
              (remapLoop fp (equalizationTable fp (countLoop s) s) s.pixelCount s.pixels).2
            k := bitsPerPixel / bytesPerPixel
            L := Dbl.fin (2 ^ (bitsPerPixel / bytesPerPixel)) }) := by
  unfold histogramEqualization
  rw [hs]
  simp only [hacc, Bool.not_true, Bool.false_eq_true, if_false]
  rw [imageHistogram_eq st s hs hcur hacc]
  simp only []
  rw [copyLoop_eq _ (countLoop s) (remapLoop_hist _ _ _ _).1 (length_countUpTo s _),
    remapLoop_fst]
  congr 4
  rw [Surface.pixelCount, ← hwf.1]
  exact forLoop_set_eq_map (fun p : Pixel =>
    (⟨newIntensity fp (equalizationTable fp (countLoop s) s) p.r,
      newIntensity fp (equalizationTable fp (countLoop s) s) p.r,
      newIntensity fp (equalizationTable fp (countLoop s) s) p.r, p.a⟩ : Pixel)) s.pixels

/-! ## The rescaled table -/

/-- C9 (amended). For every loaded, well-formed image that `checkGrayScale` accepts and that
has at least one pixel of intensity below 255, the table maximum `maxValue` is a strictly
positive number, so the division by `maxValue` in the rescale loop, which has no guard, is
not a division by zero, and each of the 256 entries of the table is a number; in the
binary64 arithmetic the code runs and in exact arithmetic alike. -/
theorem rescale_defined_of_pixel_below_255 (u : ℤ) (st : State) (s : Surface)
    (hs : st.surface = some s) (hwf : s.WF) (hcur : st.currentHistogram.length = 256)
    (hacc : checkGrayScale s = true) (p : Pixel) (hp : p ∈ s.pixels) (hr : p.r < 255) :
    (∃ m, maxValue (FpEnv.ieee u) (imageHistogram st).2.currentHistogram s = Dbl.fin m
        ∧ 0 < m
        ∧ ∀ i, i < 256 → ∃ q,
            (equalizationTable (FpEnv.ieee u) (imageHistogram st).2.currentHistogram s)[i]?
              = some (Dbl.fin q))
      ∧ ∃ m, maxValue (FpEnv.exact u) (imageHistogram st).2.currentHistogram s = Dbl.fin m
        ∧ 0 < m
        ∧ ∀ i, i < 256 → ∃ q,
            (equalizationTable (FpEnv.exact u) (imageHistogram st).2.currentHistogram s)[i]?
              = some (Dbl.fin q) := by
  have hne : 0 < s.w * s.h := by
    have := List.length_pos_of_mem hp
    rw [hwf.1] at this
    exact this
  have hc : 0 < cum s 254 := by
    unfold cum
    rw [List.countP_pos_iff]
    exact ⟨p, hp, by simp; omega⟩
  rw [imageHistogram_eq st s hs hcur hacc]
  simp only []
  constructor
  · obtain ⟨m, h1, h2, _, h4⟩ := table_ieee_in_range u s hwf hne
    have hpos : 0 < m := by
      have a := (ieeeEntry_spec s hwf hne 254 (by decide)).2.2.2.2 hc
      have b := h2 254 (by decide)
      have c : (0 : ℚ) < 1 / 2 ^ 24 := by norm_num
      linarith
    refine ⟨m, h1, hpos, ?_⟩
    intro i hi
    obtain ⟨q, hq, _, _⟩ := h4 hpos i hi
    exact ⟨q, hq⟩
  · obtain ⟨h1, _⟩ := equalizationTable_exact u s hwf.1 hne
    refine ⟨_, h1, rawEntry_254_pos_of_cum s hne hc, ?_⟩
    intro i hi
    obtain ⟨q, hq, _, _⟩ := table_exact_in_range u s hwf.1 hne hc i hi
    exact ⟨q, hq⟩

/-! ## The scenario image -/

theorem scenario_soma (k : Nat) (hk : k < 255) : soma (countLoop scenarioImage) k = 3 := by
  rw [soma_countLoop scenarioImage (by decide) k (by omega)]
  have e : decide (255 ≤ k) = false := by simpa using hk
  simp [cum, scenarioImage, List.countP_cons, e]

theorem scenario_rawEntry_low (v : Nat) (hv : v < 255) : rawEntry scenarioImage v = 765 / 4 := by
  have hc : cum scenarioImage v = 3 := by
    have e : decide (255 ≤ v) = false := by simpa using hv
    simp [cum, scenarioImage, List.countP_cons, e]
  unfold rawEntry
  rw [if_pos hv, hc]
  norm_num [scenarioImage]

/-- The entry `255 * 3 / 4 = 191.25` of every visited level of the scenario image, in binary64
arithmetic. -/
theorem scenario_entry_ieee (u : ℤ) (k : Nat) (hk : k < 255) :
    Dbl.div (FpEnv.ieee u)
        (Dbl.mul (FpEnv.ieee u)
          (Dbl.sub (FpEnv.ieee u) (Dbl.fin (2 ^ (bitsPerPixel / bytesPerPixel)))
            (Dbl.ofInt (FpEnv.ieee u) 1))
          (Dbl.ofInt (FpEnv.ieee u) (soma (countLoop scenarioImage) k)))
        (Dbl.ofInt (FpEnv.ieee u) ((scenarioImage.h * scenarioImage.w : Nat) : ℤ))
      = Dbl.fin (765 / 4) := by
  obtain ⟨_, b3, b4, _, b765, bq, _⟩ := binary64_values
  rw [ieee_levels, scenario_soma k hk, ieee_ofInt, ieee_ofInt]
  have e3 : (((3 : Nat) : ℤ) : ℚ) = 3 := by norm_num
  have e4 : (((scenarioImage.h * scenarioImage.w : Nat) : ℤ) : ℚ) = 4 := by
    norm_num [scenarioImage]
  rw [e3, e4, b3, b4, ieee_mul]
  have e765 : (255 : ℚ) * 3 = 765 := by norm_num
  rw [e765, b765, ieee_div _ _ _ (by norm_num), bq]

/-- The rescaled table of the scenario image, in exact and in binary64 arithmetic alike: 255 at
every level below 255, 0 at level 255; its maximum before the rescale is 191.25. -/
theorem scenario_table (u : ℤ) :
    maxValue (FpEnv.exact u) (countLoop scenarioImage) scenarioImage = Dbl.fin (765 / 4)
      ∧ maxValue (FpEnv.ieee u) (countLoop scenarioImage) scenarioImage = Dbl.fin (765 / 4)
      ∧ ∀ v, v < 256 →
          (equalizationTable (FpEnv.exact u) (countLoop scenarioImage) scenarioImage)[v]?
              = some (Dbl.fin (if v < 255 then 255 else 0))
            ∧ (equalizationTable (FpEnv.ieee u) (countLoop scenarioImage) scenarioImage)[v]?
              = some (Dbl.fin (if v < 255 then 255 else 0)) := by
  obtain ⟨x1, x2⟩ := equalizationTable_exact u scenarioImage (by decide) (by decide)
  obtain ⟨y1, y2⟩ := table_of_entries (FpEnv.ieee u) (countLoop scenarioImage) scenarioImage
    (fun _ => 765 / 4) (ieee_neg_one u) (scenario_entry_ieee u) (by norm_num)
    (fun _ _ _ _ => le_refl _)
  obtain ⟨_, _, _, b255, _, _, bp⟩ := binary64_values
  rw [scenario_rawEntry_low 254 (by decide)] at x1
  refine ⟨x1, y1, ?_⟩
  intro v hv
  rw [x2 v hv, y2 v hv, scenario_rawEntry_low 254 (by decide), exact_div _ _ _ (by norm_num),
    ieee_ofInt]
  have e255 : (((255 : ℤ)) : ℚ) = 255 := by norm_num
  rw [e255, b255]
  by_cases h : v < 255
  · rw [scenario_rawEntry_low v h, if_pos h, if_pos h, ieee_mul]
    have e1 : (765 : ℚ) / 4 * 255 = 195075 / 4 := by norm_num
    have e2 : (195075 : ℚ) / 4 / (765 / 4) = 255 := by norm_num
    rw [e1, bp, ieee_div _ _ _ (by norm_num), e2, b255]
    exact ⟨by norm_num, rfl⟩
  · have hv255 : v = 255 := by omega
    subst hv255
    rw [if_neg h, if_neg h, ieee_mul, zero_mul, binary64_zero, ieee_div _ _ _ (by norm_num),
      zero_div, binary64_zero]
    unfold rawEntry
    rw [if_neg h]
    exact ⟨by norm_num, rfl⟩

theorem scenario_hist :
    (imageHistogram (loaded scenarioImage)).2.currentHistogram = countLoop scenarioImage := by
  rw [imageHistogram_eq (loaded scenarioImage) scenarioImage rfl (List.length_replicate 256 0)
    (by decide)]

theorem scenario_maxValue (u : ℤ) :
    maxValue (FpEnv.exact u) (imageHistogram (loaded scenarioImage)).2.currentHistogram
      scenarioImage = Dbl.fin (765 / 4) := by
  rw [scenario_hist]
  exact (scenario_table u).1

/-- The new intensities of the scenario image, in exact and in binary64 arithmetic alike: 255
for every old intensity below 255, and 0 for the old intensity 255. -/
theorem scenario_newIntensity (u : ℤ) (v : Nat) (hv : v < 256) :
    newIntensity (FpEnv.exact u)
        (equalizationTable (FpEnv.exact u) (countLoop scenarioImage) scenarioImage) v
        = (if v < 255 then 255 else 0)
      ∧ newIntensity (FpEnv.ieee u)
        (equalizationTable (FpEnv.ieee u) (countLoop scenarioImage) scenarioImage) v
        = (if v < 255 then 255 else 0) := by
  obtain ⟨hx, hy⟩ := (scenario_table u).2.2 v hv
  have e255 : ⌊(255 : ℚ)⌋ = 255 := by norm_num
  have e0 : ⌊(0 : ℚ)⌋ = 0 := by norm_num
  by_cases hlt : v < 255
  · rw [if_pos hlt] at hx hy ⊢
    have a := (newIntensity_of_range (FpEnv.exact u) _ v 255 hx (by norm_num) (by norm_num)).1
    have b := (newIntensity_of_range (FpEnv.ieee u) _ v 255 hy (by norm_num) (by norm_num)).1
    rw [e255] at a b
    exact ⟨by exact_mod_cast a, by exact_mod_cast b⟩
  · rw [if_neg hlt] at hx hy ⊢
    have a := (newIntensity_of_range (FpEnv.exact u) _ v 0 hx (by norm_num) (by norm_num)).1
    have b := (newIntensity_of_range (FpEnv.ieee u) _ v 0 hy (by norm_num) (by norm_num)).1
    rw [e0] at a b
    exact ⟨by exact_mod_cast a, by exact_mod_cast b⟩

/-- C1 (the code at the claim's own example). On the 2x2 image with three black pixels and one
white pixel `histogramEqualization` rewrites the three black pixels to intensity 255 and the
white pixel to intensity 0, in exact arithmetic and in binary64 arithmetic alike: the loop
that fills the table stops at level 254, so `histogramE[255]` keeps its initial 0 and the
maximum is the entry 191.25 of the black level. -/
theorem histogramEqualization_scenario :
    (histogramEqualization (FpEnv.exact 0) (loaded scenarioImage)).2.surface
        = some ⟨2, 2, [⟨255, 255, 255, 255⟩, ⟨255, 255, 255, 255⟩, ⟨255, 255, 255, 255⟩,
            ⟨0, 0, 0, 255⟩]⟩
      ∧ (histogramEqualization (FpEnv.ieee 0) (loaded scenarioImage)).2.surface
        = some ⟨2, 2, [⟨255, 255, 255, 255⟩, ⟨255, 255, 255, 255⟩, ⟨255, 255, 255, 255⟩,
            ⟨0, 0, 0, 255⟩]⟩ := by
  rw [histogramEqualization_eq (FpEnv.exact 0) (loaded scenarioImage) scenarioImage rfl
      (by decide) (List.length_replicate 256 0) (by decide),
    histogramEqualization_eq (FpEnv.ieee 0) (loaded scenarioImage) scenarioImage rfl
      (by decide) (List.length_replicate 256 0) (by decide)]
  obtain ⟨a0, b0⟩ := scenario_newIntensity 0 0 (by decide)
  obtain ⟨a255, b255⟩ := scenario_newIntensity 0 255 (by decide)
  rw [if_pos (by decide)] at a0 b0
  rw [if_neg (by decide)] at a255 b255
  have hp : scenarioImage.pixels
      = [⟨0, 0, 0, 255⟩, ⟨0, 0, 0, 255⟩, ⟨0, 0, 0, 255⟩, ⟨255, 255, 255, 255⟩] := rfl
  simp only [hp, List.map_cons, List.map_nil, a0, b0, a255, b255]
  exact ⟨rfl, rfl⟩

/-- C7 (the code at a failing input). On the 2x2 image with three black pixels and one white
pixel, level 255 has the largest cumulative sum (all `2 * 2` pixels) and the table maximum
is the non-zero 191.25, yet after the rescale step the entry of level 255 is 0, so the
brightest pixels are rewritten to intensity 0; in exact and in binary64 arithmetic alike. -/
theorem brightest_level_maps_to_zero :
    cum scenarioImage 255 = 2 * 2
      ∧ maxValue (FpEnv.exact 0) (imageHistogram (loaded scenarioImage)).2.currentHistogram
          scenarioImage = Dbl.fin (765 / 4)
      ∧ (equalizationTable (FpEnv.exact 0)
          (imageHistogram (loaded scenarioImage)).2.currentHistogram scenarioImage)[255]?
          = some (Dbl.fin 0)
      ∧ newIntensity (FpEnv.exact 0)
          (equalizationTable (FpEnv.exact 0)
            (imageHistogram (loaded scenarioImage)).2.currentHistogram scenarioImage) 255
          = 0
      ∧ maxValue (FpEnv.ieee 0) (imageHistogram (loaded scenarioImage)).2.currentHistogram
          scenarioImage = Dbl.fin (765 / 4)
      ∧ (equalizationTable (FpEnv.ieee 0)
          (imageHistogram (loaded scenarioImage)).2.currentHistogram scenarioImage)[255]?
          = some (Dbl.fin 0)
      ∧ newIntensity (FpEnv.ieee 0)
          (equalizationTable (FpEnv.ieee 0)
            (imageHistogram (loaded scenarioImage)).2.currentHistogram scenarioImage) 255
          = 0 := by
  rw [scenario_hist]
  obtain ⟨m1, m2, t⟩ := scenario_table 0
  obtain ⟨t1, t2⟩ := t 255 (by decide)
  obtain ⟨n1, n2⟩ := scenario_newIntensity 0 255 (by decide)
  exact ⟨by decide, m1, t1, n1, m2, t2, n2⟩

/-- The scenario image has a black pixel: its table maximum is positive and every entry of
its table is a number. -/
theorem rescale_defined_of_pixel_below_255_witness :
    (∃ m, maxValue (FpEnv.ieee 0) (imageHistogram (loaded scenarioImage)).2.currentHistogram
          scenarioImage = Dbl.fin m
        ∧ 0 < m
        ∧ ∀ i, i < 256 → ∃ q,
            (equalizationTable (FpEnv.ieee 0)
              (imageHistogram (loaded scenarioImage)).2.currentHistogram scenarioImage)[i]?
              = some (Dbl.fin q))
      ∧ ∃ m, maxValue (FpEnv.exact 0) (imageHistogram (loaded scenarioImage)).2.currentHistogram
          scenarioImage = Dbl.fin m
        ∧ 0 < m
        ∧ ∀ i, i < 256 → ∃ q,
            (equalizationTable (FpEnv.exact 0)
              (imageHistogram (loaded scenarioImage)).2.currentHistogram scenarioImage)[i]?
              = some (Dbl.fin q) :=
  rescale_defined_of_pixel_below_255 0 (loaded scenarioImage) scenarioImage rfl (by decide)
    (List.length_replicate 256 0) (by decide) ⟨0, 0, 0, 255⟩ (by decide) (by decide)

/-! ## The 7x1 image -/

theorem white_soma (k : Nat) (hk : k < 255) : soma (countLoop whiteImage) k = 0 := by
  rw [soma_countLoop whiteImage (by decide) k (by omega)]
  have e : decide (255 ≤ k) = false := by simpa using hk
  simp [cum, whiteImage, List.countP_cons, e]

theorem white_rawEntry (v : Nat) : rawEntry whiteImage v = 0 := by
  unfold rawEntry
  by_cases hv : v < 255
  · have hc : cum whiteImage v = 0 := by
      have e : decide (255 ≤ v) = false := by simpa using hv
      simp [cum, whiteImage, List.countP_cons, e]
    rw [if_pos hv, hc]
    norm_num
  · rw [if_neg hv]

/-- The entry `255 * 0 / 1 = 0` of every visited level of the all-white image, in binary64
arithmetic. -/
theorem white_entry_ieee (u : ℤ) (k : Nat) (hk : k < 255) :
    Dbl.div (FpEnv.ieee u)
        (Dbl.mul (FpEnv.ieee u)
          (Dbl.sub (FpEnv.ieee u) (Dbl.fin (2 ^ (bitsPerPixel / bytesPerPixel)))
            (Dbl.ofInt (FpEnv.ieee u) 1))
          (Dbl.ofInt (FpEnv.ieee u) (soma (countLoop whiteImage) k)))
        (Dbl.ofInt (FpEnv.ieee u) ((whiteImage.h * whiteImage.w : Nat) : ℤ))
      = Dbl.fin 0 := by
  rw [ieee_levels, white_soma k hk, ieee_ofInt, ieee_ofInt]
  have e0 : (((0 : Nat) : ℤ) : ℚ) = 0 := by norm_num
  have e1 : (((whiteImage.h * whiteImage.w : Nat) : ℤ) : ℚ) = 1 := by norm_num [whiteImage]
  rw [e0, e1, binary64_zero, binary64_values.1, ieee_mul, mul_zero, binary64_zero,
    ieee_div _ _ _ (by norm_num), zero_div, binary64_zero]

/-- C9 (counterexample). The 1x1 image whose only pixel is white is well-formed, non-empty
and accepted by `checkGrayScale`; its table maximum is 0, the rescale loop divides 0 by 0
without any guard, and each of the 256 entries of the table is NaN, in exact and in binary64
arithmetic alike. -/
theorem rescale_divides_zero_by_zero :
    whiteImage.WF ∧ 0 < whiteImage.w * whiteImage.h ∧ checkGrayScale whiteImage = true
      ∧ maxValue (FpEnv.exact 0) (imageHistogram (loaded whiteImage)).2.currentHistogram
          whiteImage = Dbl.fin 0
      ∧ maxValue (FpEnv.ieee 0) (imageHistogram (loaded whiteImage)).2.currentHistogram
          whiteImage = Dbl.fin 0
      ∧ ∀ i, i < 256 →
          (equalizationTable (FpEnv.exact 0)
              (imageHistogram (loaded whiteImage)).2.currentHistogram whiteImage)[i]?
              = some Dbl.nan
            ∧ (equalizationTable (FpEnv.ieee 0)
              (imageHistogram (loaded whiteImage)).2.currentHistogram whiteImage)[i]?
              = some Dbl.nan := by
  rw [imageHistogram_eq (loaded whiteImage) whiteImage rfl (List.length_replicate 256 0)
    (by decide)]
  simp only []
  obtain ⟨x1, x2⟩ := equalizationTable_exact 0 whiteImage (by decide) (by decide)
  obtain ⟨y1, y2⟩ := table_of_entries (FpEnv.ieee 0) (countLoop whiteImage) whiteImage
    (fun _ => 0) (ieee_neg_one 0) (white_entry_ieee 0) (le_refl _) (fun _ _ _ _ => le_refl _)
  rw [white_rawEntry] at x1
  refine ⟨by decide, by decide, by decide, x1, y1, ?_⟩
  intro i hi
  constructor
  · rw [x2 i hi, white_rawEntry, white_rawEntry, zero_mul, exact_div_zero]
  · rw [y2 i hi, ieee_ofInt]
    have e255 : (((255 : ℤ)) : ℚ) = 255 := by norm_num
    rw [e255, binary64_values.2.2.2.1]
    simp only [ite_self]
    rw [ieee_mul, zero_mul, binary64_zero]
    simp [Dbl.div]

/-! ## Zero-sized images -/

theorem checkGrayScale_of_zero (s : Surface) (hz : s.w * s.h = 0) :
    checkGrayScale s = true := by
  unfold checkGrayScale Surface.pixelCount
  rw [hz]
  rfl

theorem countLoop_of_zero (s : Surface) (hz : s.w * s.h = 0) :
    countLoop s = List.replicate 256 0 := by
  unfold countLoop Surface.pixelCount
  rw [hz]
  rfl

theorem soma_replicate_zero (k : Nat) : soma (List.replicate 256 0) k = 0 := by
  have hget : ∀ j, (List.replicate 256 0).getD j 0 = 0 := by
    intro j
    rw [List.getD_eq_getElem?_getD, List.getElem?_replicate]
    split <;> rfl
  unfold soma
  induction k with
  | zero => simp only [forLoop, Nat.zero_add, hget]
  | succ k ih => rw [forLoop_succ, ih, hget]

/-- The entry the first loop computes when `M * N = 0`, in exact and in binary64 arithmetic
alike: the quotient `0 / 0`, NaN. -/
theorem entry_of_zero (u : ℤ) (M N : Nat) (hz : M * N = 0) (k : Nat) :
    Dbl.div (FpEnv.exact u)
        (Dbl.mul (FpEnv.exact u)
          (Dbl.sub (FpEnv.exact u) (Dbl.fin (2 ^ (bitsPerPixel / bytesPerPixel)))
            (Dbl.ofInt (FpEnv.exact u) 1))
          (Dbl.ofInt (FpEnv.exact u) (soma (List.replicate 256 0) k)))
        (Dbl.ofInt (FpEnv.exact u) ((M * N : Nat) : ℤ))
        = Dbl.nan
      ∧ Dbl.div (FpEnv.ieee u)
        (Dbl.mul (FpEnv.ieee u)
          (Dbl.sub (FpEnv.ieee u) (Dbl.fin (2 ^ (bitsPerPixel / bytesPerPixel)))
            (Dbl.ofInt (FpEnv.ieee u) 1))
          (Dbl.ofInt (FpEnv.ieee u) (soma (List.replicate 256 0) k)))
        (Dbl.ofInt (FpEnv.ieee u) ((M * N : Nat) : ℤ))
        = Dbl.nan := by
  constructor
  · rw [exact_ofInt, exact_ofInt, exact_ofInt, exact_sub, exact_mul, soma_replicate_zero, hz]
    simp [Dbl.div]
  · rw [ieee_levels, soma_replicate_zero, hz, ieee_ofInt]
    have e0 : (((0 : Nat) : ℤ) : ℚ) = 0 := by norm_num
    rw [e0, binary64_zero, ieee_mul, mul_zero, binary64_zero]
    simp [Dbl.div]

/-- On a zero-sized image each of the 256 entries of the table is NaN, in exact and in
binary64 arithmetic alike: the first loop divides by `M * N = 0`, the search loop finds the
maximum 0 at level 255, and the rescale loop divides by it. -/
theorem equalizationTable_of_zero (u : ℤ) (s : Surface) (hz : s.w * s.h = 0) (i : Nat)
    (hi : i < 256) :
    (equalizationTable (FpEnv.exact u) (List.replicate 256 0) s)[i]? = some Dbl.nan
      ∧ (equalizationTable (FpEnv.ieee u) (List.replicate 256 0) s)[i]? = some Dbl.nan := by
  have hz2 : s.h * s.w = 0 := by rw [Nat.mul_comm]; exact hz
  obtain ⟨_, x2⟩ := table_of_nan (FpEnv.exact u) (List.replicate 256 0) s
    (by rw [exact_ofInt]; simp) (fun k _ => (entry_of_zero u s.h s.w hz2 k).1)
  obtain ⟨_, y2⟩ := table_of_nan (FpEnv.ieee u) (List.replicate 256 0) s
    (ieee_neg_one u) (fun k _ => (entry_of_zero u s.h s.w hz2 k).2)
  rw [x2 i hi, y2 i hi, ieee_ofInt, exact_ofInt]
  have e255 : (((255 : ℤ)) : ℚ) = 255 := by norm_num
  rw [e255, binary64_values.2.2.2.1]
  by_cases h : i < 255
  · rw [if_pos h]
    exact ⟨rfl, rfl⟩
  · rw [if_neg h, exact_mul, ieee_mul, zero_mul, binary64_zero]
    simp [Dbl.div]

/-- What `histogramEqualization` does on a loaded zero-sized image, in any floating-point
environment. -/
theorem histogramEqualization_of_zero (fp : FpEnv) (st : State) (s : Surface)
    (hs : st.surface = some s) (hcur : st.currentHistogram.length = 256)
    (hz : s.w * s.h = 0) :
    histogramEqualization fp st
      = (Outcome.done,
          { surface := some s
            currentHistogram := List.replicate 256 0
            k := bitsPerPixel / bytesPerPixel
            L := Dbl.fin (2 ^ (bitsPerPixel / bytesPerPixel)) }) := by
  unfold histogramEqualization
  rw [hs]
  simp only [checkGrayScale_of_zero s hz, Bool.not_true, Bool.false_eq_true, if_false]
  rw [imageHistogram_eq st s hs hcur (checkGrayScale_of_zero s hz)]
  simp only [Surface.pixelCount, hz]
  rw [copyLoop_eq _ (countLoop s) (remapLoop_hist _ _ _ _).1 (length_countUpTo s _)]
  rfl

/-- C8 (amended). For every loaded zero-sized image (`w * h = 0`) `histogramEqualization`
does not fail: it runs to its end, leaves the surface with its (empty) pixel buffer as it
was, and overwrites the current histogram with 256 zeros, in any floating-point environment;
the division by `M * N = 0` is carried out, and in exact and in binary64 arithmetic alike
each of the 256 entries of the table is NaN. -/
theorem histogramEqualization_zero_sized (fp : FpEnv) (u : ℤ) (st : State) (s : Surface)
    (hs : st.surface = some s) (hcur : st.currentHistogram.length = 256)
    (hz : s.w * s.h = 0) :
    (histogramEqualization fp st).1 = Outcome.done
      ∧ (histogramEqualization fp st).2.surface = some s
      ∧ (histogramEqualization fp st).2.currentHistogram = List.replicate 256 0
      ∧ ∀ i, i < 256 →
          (equalizationTable (FpEnv.exact u) (imageHistogram st).2.currentHistogram s)[i]?
              = some Dbl.nan
            ∧ (equalizationTable (FpEnv.ieee u) (imageHistogram st).2.currentHistogram s)[i]?
              = some Dbl.nan := by
  rw [histogramEqualization_of_zero fp st s hs hcur hz,
    imageHistogram_eq st s hs hcur (checkGrayScale_of_zero s hz)]
  refine ⟨rfl, rfl, rfl, ?_⟩
  intro i hi
  simp only [countLoop_of_zero s hz]
  exact equalizationTable_of_zero u s hz i hi

theorem staleState_length : staleState.currentHistogram.length = 256 := by
  simp only [staleState, List.length_cons, List.length_append, List.length_replicate,
    List.length_nil]

theorem histogramEqualization_zero_sized_witness :
    (histogramEqualization (FpEnv.ieee 0) staleState).1 = Outcome.done
      ∧ (histogramEqualization (FpEnv.ieee 0) staleState).2.surface = some emptyImage
      ∧ (histogramEqualization (FpEnv.ieee 0) staleState).2.currentHistogram
          = List.replicate 256 0
      ∧ ∀ i, i < 256 →
          (equalizationTable (FpEnv.exact 0) (imageHistogram staleState).2.currentHistogram
              emptyImage)[i]? = some Dbl.nan
            ∧ (equalizationTable (FpEnv.ieee 0) (imageHistogram staleState).2.currentHistogram
              emptyImage)[i]? = some Dbl.nan :=
  histogramEqualization_zero_sized (FpEnv.ieee 0) 0 staleState emptyImage rfl
    staleState_length (by decide)

/-- C8 (counterexample). On the zero-sized image `histogramEqualization` reports no failure:
its outcome is that of a completed run; the table entry of level 0 is the NaN of the division
`0 / 0`, in exact and in binary64 arithmetic; and when the current histogram showed an
earlier image it is overwritten with zeros. -/
theorem zero_sized_image_not_rejected :
    (histogramEqualization (FpEnv.ieee 0) (loaded emptyImage)).1 = Outcome.done
      ∧ (equalizationTable (FpEnv.exact 0)
          (imageHistogram (loaded emptyImage)).2.currentHistogram emptyImage)[0]?
          = some Dbl.nan
      ∧ (equalizationTable (FpEnv.ieee 0)
          (imageHistogram (loaded emptyImage)).2.currentHistogram emptyImage)[0]?
          = some Dbl.nan
      ∧ (histogramEqualization (FpEnv.ieee 0) staleState).1 = Outcome.done
      ∧ (histogramEqualization (FpEnv.ieee 0) staleState).2.currentHistogram
          ≠ staleState.currentHistogram := by
  have ht : (imageHistogram (loaded emptyImage)).2.currentHistogram = List.replicate 256 0 := by
    rw [imageHistogram_eq (loaded emptyImage) emptyImage rfl (List.length_replicate 256 0)
      (by decide)]
    exact countLoop_of_zero emptyImage (by decide)
  rw [ht]
  obtain ⟨t1, t2⟩ := equalizationTable_of_zero 0 emptyImage (by decide) 0 (by decide)
  refine ⟨rfl, t1, t2, rfl, ?_⟩
  rw [histogramEqualization_of_zero (FpEnv.ieee 0) staleState emptyImage rfl
    staleState_length (by decide)]
  intro h
  have := congrArg (fun l => l[0]?) h
  simp only [staleState, List.getElem?_replicate, List.getElem?_cons_zero] at this
  simp at this

/-! ## The weighted sum in binary64 arithmetic -/

/-- A product `n * c` of the weighted sum, computed in binary64: the channel value `n` is
converted, the constant `c` is read, the product is rounded. -/
theorem mul_near (u : ℤ) (n : Nat) (hn : n < 256) (c : ℚ) (hc0 : 0 ≤ c) (hc1 : c ≤ 1) :
    ∃ p, Dbl.mul (FpEnv.ieee u) (Dbl.ofInt (FpEnv.ieee u) n) (Dbl.lit (FpEnv.ieee u) c)
        = Dbl.fin p ∧ |p - n * c| ≤ 258 / 2 ^ 46 := by
  have hn1 : (n : ℚ) ≤ 255 := by exact_mod_cast Nat.le_of_lt_succ hn
  have hn0 : (0 : ℚ) ≤ n := Nat.cast_nonneg n
  obtain ⟨n1, e1, b1⟩ := binary64_near ((n : ℤ) : ℚ) (by
    rw [Int.cast_natCast, abs_of_nonneg hn0]; linarith)
  obtain ⟨c1, e2, b2⟩ := binary64_near c (by rw [abs_of_nonneg hc0]; linarith)
  rw [Int.cast_natCast] at b1
  rw [abs_le] at b1 b2
  have hd : (1 : ℚ) / 2 ^ 46 ≤ 1 / 1000 := by norm_num
  have hn1a : |n1| ≤ 256 := by rw [abs_le]; constructor <;> linarith
  have hc1a : |c1| ≤ 1 + 1 / 1000 := by rw [abs_le]; constructor <;> linarith
  have hprod : |n1 * c1| < 256.5 := by
    rw [abs_mul]
    calc |n1| * |c1| ≤ 256 * (1 + 1 / 1000) :=
          mul_le_mul hn1a hc1a (abs_nonneg _) (by norm_num)
      _ < 256.5 := by norm_num
  have hprod2 : |n1 * c1| < 256 := by
    have hn1b : |n1| ≤ 255 + 1 / 1000 := by rw [abs_le]; constructor <;> linarith
    rw [abs_mul]
    calc |n1| * |c1| ≤ (255 + 1 / 1000) * (1 + 1 / 1000) :=
          mul_le_mul hn1b hc1a (abs_nonneg _) (by norm_num)
      _ < 256 := by norm_num
  obtain ⟨p, e3, b3⟩ := binary64_near (n1 * c1) hprod2
  refine ⟨p, ?_, ?_⟩
  · show Dbl.mul (FpEnv.ieee u) (binary64 ((n : ℤ) : ℚ)) (binary64 c) = _
    rw [e1, e2]
    exact e3
  · have key : n1 * c1 - n * c = n1 * (c1 - c) + c * (n1 - n) := by ring
    have k1 : |n1 * (c1 - c)| ≤ 256 * (1 / 2 ^ 46) := by
      rw [abs_mul]
      exact mul_le_mul hn1a (abs_le.2 ⟨by linarith, by linarith⟩) (abs_nonneg _) (by norm_num)
    have k2 : |c * (n1 - n)| ≤ 1 * (1 / 2 ^ 46) := by
      rw [abs_mul, abs_of_nonneg hc0]
      exact mul_le_mul hc1 (abs_le.2 ⟨by linarith, by linarith⟩) (abs_nonneg _) (by norm_num)
    have k3 : |n1 * c1 - n * c| ≤ 257 / 2 ^ 46 := by
      rw [key]
      refine le_trans (abs_add _ _) ?_
      linarith
    have k4 : p - n * c = (p - n1 * c1) + (n1 * c1 - n * c) := by ring
    rw [k4]
    refine le_trans (abs_add _ _) ?_
    linarith

/-- A sum of two finite doubles below 256, computed in binary64. -/
theorem add_near (u : ℤ) (a b : ℚ) (h : |a + b| < 256) :
    ∃ s, Dbl.add (FpEnv.ieee u) (Dbl.fin a) (Dbl.fin b) = Dbl.fin s
      ∧ |s - (a + b)| ≤ 1 / 2 ^ 46 :=
  binary64_near (a + b) h

/-- The double that `greyImageWeightedSum` truncates is within `776 / 2 ^ 46` of the exact
weighted sum. -/
theorem weighted_value_near (u : ℤ) (r g b : Nat) (hr : r < 256) (hg : g < 256)
    (hb : b < 256) :
    ∃ v, Dbl.add (FpEnv.ieee u)
          (Dbl.add (FpEnv.ieee u)
            (Dbl.mul (FpEnv.ieee u) (Dbl.ofInt (FpEnv.ieee u) r)
              (Dbl.lit (FpEnv.ieee u) (2126 / 10000)))
            (Dbl.mul (FpEnv.ieee u) (Dbl.ofInt (FpEnv.ieee u) g)
              (Dbl.lit (FpEnv.ieee u) (7152 / 10000))))
          (Dbl.mul (FpEnv.ieee u) (Dbl.ofInt (FpEnv.ieee u) b)
            (Dbl.lit (FpEnv.ieee u) (722 / 10000)))
        = Dbl.fin v
      ∧ |v - ((2126 * r + 7152 * g + 722 * b : Nat) : ℚ) / 10000| ≤ 776 / 2 ^ 46 := by
  have hr1 : (r : ℚ) ≤ 255 := by exact_mod_cast Nat.le_of_lt_succ hr
  have hg1 : (g : ℚ) ≤ 255 := by exact_mod_cast Nat.le_of_lt_succ hg
  have hb1 : (b : ℚ) ≤ 255 := by exact_mod_cast Nat.le_of_lt_succ hb
  have hr0 : (0 : ℚ) ≤ r := Nat.cast_nonneg r
  have hg0 : (0 : ℚ) ≤ g := Nat.cast_nonneg g
  have hb0 : (0 : ℚ) ≤ b := Nat.cast_nonneg b
  obtain ⟨p1, e1, b1⟩ := mul_near u r hr (2126 / 10000) (by norm_num) (by norm_num)
  obtain ⟨p2, e2, b2⟩ := mul_near u g hg (7152 / 10000) (by norm_num) (by norm_num)
  obtain ⟨p3, e3, b3⟩ := mul_near u b hb (722 / 10000) (by norm_num) (by norm_num)
  rw [abs_le] at b1 b2 b3
  have hd : (258 : ℚ) / 2 ^ 46 ≤ 1 / 100000 := by norm_num
  obtain ⟨s1, e4, b4⟩ := add_near u p1 p2 (by
    rw [abs_lt]; constructor <;> linarith)
  rw [abs_le] at b4
  have hd1 : (1 : ℚ) / 2 ^ 46 ≤ 1 / 100000 := by norm_num
  obtain ⟨s2, e5, b5⟩ := add_near u s1 p3 (by
    rw [abs_lt]; constructor <;> linarith)
  rw [abs_le] at b5
  refine ⟨s2, ?_, ?_⟩
  · rw [e1, e2, e3, e4, e5]
  · push_cast
    rw [abs_le]
    constructor <;> linarith

/-- The cast `(Uint8)v` of a double within `1 / 20000` of `N / 10000`: the integer quotient
when `N` is not a multiple of 10000, the quotient or one less when it is. -/
theorem toUint8_near (fp : FpEnv) (v : ℚ) (N : Nat) (hN : N / 10000 ≤ 255)
    (hv : |v - (N : ℚ) / 10000| ≤ 1 / 20000) :
    Dbl.toUint8 fp (Dbl.fin v) ≤ 255
      ∧ Dbl.toUint8 fp (Dbl.fin v) ≤ N / 10000
      ∧ N / 10000 ≤ Dbl.toUint8 fp (Dbl.fin v) + 1
      ∧ (N % 10000 ≠ 0 → Dbl.toUint8 fp (Dbl.fin v) = N / 10000) := by
  have hdiv : (N : ℚ) / 10000 = (N / 10000 : Nat) + ((N % 10000 : Nat) : ℚ) / 10000 := by
    have := Nat.div_add_mod N 10000
    have h2 : (N : ℚ) = 10000 * (N / 10000 : Nat) + (N % 10000 : Nat) := by exact_mod_cast this.symm
    rw [h2]
    ring
  have hmod : N % 10000 < 10000 := Nat.mod_lt _ (by norm_num)
  have hmodq : ((N % 10000 : Nat) : ℚ) ≤ 9999 := by exact_mod_cast Nat.le_of_lt_succ hmod
  have hmod0 : (0 : ℚ) ≤ ((N % 10000 : Nat) : ℚ) := Nat.cast_nonneg _
  have hk0 : (0 : ℚ) ≤ ((N / 10000 : Nat) : ℚ) := Nat.cast_nonneg _
  rw [hdiv, abs_le] at hv
  obtain ⟨hv1, hv2⟩ := hv
  -- the value of the cast once the truncation is known
  have cast_of : ∀ t : Nat, t ≤ 255 → Dbl.truncQ v = (t : ℤ) →
      Dbl.toUint8 fp (Dbl.fin v) = t := toUint8_of_truncQ fp v
  have floor_case : ∀ t : Nat, t ≤ 255 → (t : ℚ) ≤ v → v < t + 1 →
      Dbl.toUint8 fp (Dbl.fin v) = t := by
    intro t ht h1 h2
    apply cast_of t ht
    have hv0 : 0 ≤ v := le_trans (Nat.cast_nonneg t) h1
    rw [truncQ_of_nonneg v hv0]
    exact Int.floor_eq_iff.2 ⟨by exact_mod_cast h1, by exact_mod_cast h2⟩
  by_cases hρ : N % 10000 = 0
  · rw [hρ] at hv1 hv2
    simp only [Nat.cast_zero, zero_div, add_zero] at hv1 hv2
    by_cases hge : ((N / 10000 : Nat) : ℚ) ≤ v
    · have := floor_case (N / 10000) hN hge (by linarith)
      rw [this]
      exact ⟨hN, le_refl _, by omega, fun _ => rfl⟩
    · have hlt : v < ((N / 10000 : Nat) : ℚ) := not_le.1 hge
      by_cases hk : N / 10000 = 0
      · rw [hk] at hlt hv1 ⊢
        simp only [Nat.cast_zero, zero_sub] at hlt hv1
        have htr : Dbl.truncQ v = ((0 : Nat) : ℤ) := by
          have h1 : Dbl.truncQ (-v) = 0 := by
            rw [truncQ_of_nonneg (-v) (by linarith)]
            exact Int.floor_eq_iff.2 ⟨by push_cast; linarith, by push_cast; linarith⟩
          have h2 := truncQ_neg (-v)
          rw [neg_neg, h1] at h2
          simpa using h2
        have := cast_of 0 (by omega) htr
        rw [this]
        exact ⟨by omega, le_refl _, by omega, fun h => absurd hρ h⟩
      · obtain ⟨t, ht⟩ : ∃ t, N / 10000 = t + 1 := ⟨N / 10000 - 1, by omega⟩
        rw [ht] at hlt hv1 hN ⊢
        push_cast at hlt hv1
        have := floor_case t (by omega) (by linarith) (by linarith)
        rw [this]
        exact ⟨by omega, by omega, le_refl _, fun h => absurd hρ h⟩
  · have h1 : (1 : ℚ) ≤ ((N % 10000 : Nat) : ℚ) := by
      exact_mod_cast Nat.one_le_iff_ne_zero.2 hρ
    have := floor_case (N / 10000) hN (by linarith) (by linarith)
    rw [this]
    exact ⟨hN, le_refl _, by omega, fun _ => rfl⟩

/-- The gray level `greyImageWeightedSum` computes in binary64 arithmetic, against the exact
quotient `(2126 r + 7152 g + 722 b) / 10000`. -/
theorem weightedSum_ieee (u : ℤ) (r g b : Nat) (hr : r < 256) (hg : g < 256) (hb : b < 256) :
    weightedSum (FpEnv.ieee u) r g b ≤ 255
      ∧ weightedSum (FpEnv.ieee u) r g b ≤ (2126 * r + 7152 * g + 722 * b) / 10000
      ∧ (2126 * r + 7152 * g + 722 * b) / 10000 ≤ weightedSum (FpEnv.ieee u) r g b + 1
      ∧ ((2126 * r + 7152 * g + 722 * b) % 10000 ≠ 0 →
          weightedSum (FpEnv.ieee u) r g b = (2126 * r + 7152 * g + 722 * b) / 10000) := by
  obtain ⟨v, e, hv⟩ := weighted_value_near u r g b hr hg hb
  unfold weightedSum
  rw [e]
  exact toUint8_near (FpEnv.ieee u) v _ (by omega)
    (le_trans hv (by norm_num))

/-- The gray level the same expression yields in exact arithmetic. -/
theorem weightedSum_exact (u : ℤ) (r g b : Nat) (hr : r < 256) (hg : g < 256) (hb : b < 256) :
    weightedSum (FpEnv.exact u) r g b = (2126 * r + 7152 * g + 722 * b) / 10000 := by
  have e : weightedSum (FpEnv.exact u) r g b
      = Dbl.toUint8 (FpEnv.exact u)
          (Dbl.fin (((r : ℤ) : ℚ) * (2126 / 10000) + ((g : ℤ) : ℚ) * (7152 / 10000)
            + ((b : ℤ) : ℚ) * (722 / 10000))) := rfl
  rw [e]
  have hv : ((r : ℤ) : ℚ) * (2126 / 10000) + ((g : ℤ) : ℚ) * (7152 / 10000)
      + ((b : ℤ) : ℚ) * (722 / 10000)
      = (((2126 * r + 7152 * g + 722 * b : Nat) : ℤ) : ℚ) / ((10000 : Nat) : ℚ) := by
    push_cast
    ring
  rw [hv]
  apply toUint8_of_truncQ _ _ _ (by omega)
  rw [truncQ_of_nonneg _ (by positivity), Rat.floor_intCast_div_natCast]
  norm_cast

/-! ## The gray pixel of intensity 13 -/

/-- The binary64 constants nearest to 0.2126, 0.7152 and 0.0722. -/
theorem binary64_weights :
    binary64 (2126 / 10000) = Dbl.fin (7659722246231740 / 2 ^ 55)
      ∧ binary64 (7152 / 10000) = Dbl.fin (6441948906990757 / 2 ^ 53)
      ∧ binary64 (722 / 10000) = Dbl.fin (5202558289538397 / 2 ^ 56) := by
  refine ⟨?_, ?_, ?_⟩
  · rw [binary64_eq (2126 / 10000) (-3) 7659722246231740 (by norm_num) (by norm_num)
      (by norm_num) (by norm_num) (by norm_num [abs_lt]) (by norm_num [abs_lt])]
    norm_num
  · rw [binary64_eq (7152 / 10000) (-1) 6441948906990757 (by norm_num) (by norm_num)
      (by norm_num) (by norm_num) (by norm_num [abs_lt]) (by norm_num [abs_lt])]
    norm_num
  · rw [binary64_eq (722 / 10000) (-4) 5202558289538397 (by norm_num) (by norm_num)
      (by norm_num) (by norm_num) (by norm_num [abs_lt]) (by norm_num [abs_lt])]
    norm_num

/-- The binary64 evaluation of `13 * 0.2126 + 13 * 0.7152 + 13 * 0.0722`, step by step: the
result is `13 - 2 ^ (-49)`, just below 13. -/
theorem weighted_value_13 (u : ℤ) :
    Dbl.add (FpEnv.ieee u)
        (Dbl.add (FpEnv.ieee u)
          (Dbl.mul (FpEnv.ieee u) (Dbl.ofInt (FpEnv.ieee u) (13 : Nat))
            (Dbl.lit (FpEnv.ieee u) (2126 / 10000)))
          (Dbl.mul (FpEnv.ieee u) (Dbl.ofInt (FpEnv.ieee u) (13 : Nat))
            (Dbl.lit (FpEnv.ieee u) (7152 / 10000))))
        (Dbl.mul (FpEnv.ieee u) (Dbl.ofInt (FpEnv.ieee u) (13 : Nat))
          (Dbl.lit (FpEnv.ieee u) (722 / 10000)))
      = Dbl.fin (7318349394477055 / 2 ^ 49) := by
  obtain ⟨c1, c2, c3⟩ := binary64_weights
  have i13 : Dbl.ofInt (FpEnv.ieee u) (13 : Nat) = Dbl.fin 13 := by
    show binary64 (((13 : Nat) : ℤ) : ℚ) = _
    rw [binary64_eq _ 3 7318349394477056 (by norm_num) (by norm_num)
      (by norm_num) (by norm_num) (by norm_num [abs_lt]) (by norm_num [abs_lt])]
    norm_num
  have p1 : Dbl.mul (FpEnv.ieee u) (Dbl.fin 13) (Dbl.fin (7659722246231740 / 2 ^ 55))
      = Dbl.fin (6223524325063289 / 2 ^ 51) := by
    show binary64 _ = _
    rw [binary64_eq _ 1 6223524325063289 (by norm_num) (by norm_num)
      (by norm_num) (by norm_num) (by norm_num [abs_lt]) (by norm_num [abs_lt])]
    norm_num
  have p2 : Dbl.mul (FpEnv.ieee u) (Dbl.fin 13) (Dbl.fin (6441948906990757 / 2 ^ 53))
      = Dbl.fin (5234083486929990 / 2 ^ 49) := by
    show binary64 _ = _
    rw [binary64_eq _ 3 5234083486929990 (by norm_num) (by norm_num)
      (by norm_num) (by norm_num) (by norm_num [abs_lt]) (by norm_num [abs_lt])]
    norm_num
  have p3 : Dbl.mul (FpEnv.ieee u) (Dbl.fin 13) (Dbl.fin (5202558289538397 / 2 ^ 56))
      = Dbl.fin (8454157220499895 / 2 ^ 53) := by
    show binary64 _ = _
    rw [binary64_eq _ (-1) 8454157220499895 (by norm_num) (by norm_num)
      (by norm_num) (by norm_num) (by norm_num [abs_lt]) (by norm_num [abs_lt])]
    norm_num
  have s1 : Dbl.add (FpEnv.ieee u) (Dbl.fin (6223524325063289 / 2 ^ 51))
      (Dbl.fin (5234083486929990 / 2 ^ 49)) = Dbl.fin (6789964568195812 / 2 ^ 49) := by
    show binary64 _ = _
    rw [binary64_eq _ 3 6789964568195812 (by norm_num) (by norm_num)
      (by norm_num) (by norm_num) (by norm_num [abs_lt]) (by norm_num [abs_lt])]
    norm_num
  have s2 : Dbl.add (FpEnv.ieee u) (Dbl.fin (6789964568195812 / 2 ^ 49))
      (Dbl.fin (8454157220499895 / 2 ^ 53)) = Dbl.fin (7318349394477055 / 2 ^ 49) := by
    show binary64 _ = _
    rw [binary64_eq _ 3 7318349394477055 (by norm_num) (by norm_num)
      (by norm_num) (by norm_num) (by norm_num [abs_lt]) (by norm_num [abs_lt])]
    norm_num
  have l1 : Dbl.lit (FpEnv.ieee u) (2126 / 10000) = Dbl.fin (7659722246231740 / 2 ^ 55) := c1
  have l2 : Dbl.lit (FpEnv.ieee u) (7152 / 10000) = Dbl.fin (6441948906990757 / 2 ^ 53) := c2
  have l3 : Dbl.lit (FpEnv.ieee u) (722 / 10000) = Dbl.fin (5202558289538397 / 2 ^ 56) := c3
  rw [i13, l1, l2, l3, p1, p2, p3, s1, s2]

/-- In binary64 arithmetic the gray level of the pixel (13, 13, 13) is 12. -/
theorem weightedSum_13 (u : ℤ) : weightedSum (FpEnv.ieee u) 13 13 13 = 12 := by
  unfold weightedSum
  rw [weighted_value_13 u]
  apply toUint8_of_truncQ _ _ 12 (by decide)
  rw [truncQ_of_nonneg _ (by norm_num)]
  exact Int.floor_eq_iff.2 ⟨by norm_num, by norm_num⟩

/-! ## Grayscale conversion by the weighted sum -/

/-- What `greyImageWeightedSum` does on a loaded, well-formed image, in any floating-point
environment. -/
theorem greyImageWeightedSum_eq (fp : FpEnv) (st : State) (s : Surface)
    (hs : st.surface = some s) (hwf : s.WF) :
    greyImageWeightedSum fp st
      = (Outcome.done,
          { st with surface := some { s with pixels := s.pixels.map fun p =>
              ⟨weightedSum fp p.r p.g p.b, weightedSum fp p.r p.g p.b,
                weightedSum fp p.r p.g p.b, p.a⟩ } }) := by
  unfold greyImageWeightedSum
  rw [hs]
  simp only [Surface.pixelCount]
  rw [← hwf.1]
  rw [forLoop_set_eq_map (fun p : Pixel =>
    (⟨weightedSum fp p.r p.g p.b, weightedSum fp p.r p.g p.b,
      weightedSum fp p.r p.g p.b, p.a⟩ : Pixel)) s.pixels]

/-- C5 (amended). On a loaded, well-formed image `greyImageWeightedSum` replaces every pixel
`(R, G, B, A)` by `(y, y, y, A)`, where `y` is the truncation of the binary64 evaluation of
`R * 0.2126 + G * 0.7152 + B * 0.0722`.  With `q = (2126 R + 7152 G + 722 B) / 10000` in
integer division: `y` is at most 255, so no clamping is needed and the narrowing to 8 bits
changes nothing; `y` is `q` or `q - 1`; `y` is `q` whenever `2126 R + 7152 G + 722 B` is not
a multiple of 10000; and in exact arithmetic the same expression yields `q`. -/
theorem greyImageWeightedSum_spec (u : ℤ) (st : State) (s : Surface)
    (hs : st.surface = some s) (hwf : s.WF) :
    greyImageWeightedSum (FpEnv.ieee u) st
        = (Outcome.done,
            { st with surface := some { s with pixels := s.pixels.map fun p =>
                ⟨weightedSum (FpEnv.ieee u) p.r p.g p.b, weightedSum (FpEnv.ieee u) p.r p.g p.b,
                  weightedSum (FpEnv.ieee u) p.r p.g p.b, p.a⟩ } })
      ∧ ∀ p ∈ s.pixels,
          weightedSum (FpEnv.ieee u) p.r p.g p.b ≤ 255
            ∧ weightedSum (FpEnv.ieee u) p.r p.g p.b
                ≤ (2126 * p.r + 7152 * p.g + 722 * p.b) / 10000
            ∧ (2126 * p.r + 7152 * p.g + 722 * p.b) / 10000
                ≤ weightedSum (FpEnv.ieee u) p.r p.g p.b + 1
            ∧ ((2126 * p.r + 7152 * p.g + 722 * p.b) % 10000 ≠ 0 →
                weightedSum (FpEnv.ieee u) p.r p.g p.b
                  = (2126 * p.r + 7152 * p.g + 722 * p.b) / 10000)
            ∧ weightedSum (FpEnv.exact u) p.r p.g p.b
                = (2126 * p.r + 7152 * p.g + 722 * p.b) / 10000 := by
  refine ⟨greyImageWeightedSum_eq _ st s hs hwf, ?_⟩
  intro p hp
  obtain ⟨h1, h2, h3, _⟩ := hwf.2.2 p hp
  obtain ⟨g1, g2, g3, g4⟩ := weightedSum_ieee u p.r p.g p.b h1 h2 h3
  exact ⟨g1, g2, g3, g4, weightedSum_exact u p.r p.g p.b h1 h2 h3⟩

/-- The pixel (10, 20, 40, 255): its weighted sum 19.318 is not an integer, and its gray level
is 19. -/
theorem greyImageWeightedSum_spec_witness :
    (greyImageWeightedSum (FpEnv.ieee 0) (loaded ⟨1, 1, [⟨10, 20, 40, 255⟩]⟩)).2.surface
        = some ⟨1, 1, [⟨19, 19, 19, 255⟩]⟩ := by
  obtain ⟨h1, h2⟩ := greyImageWeightedSum_spec 0 (loaded ⟨1, 1, [⟨10, 20, 40, 255⟩]⟩)
    ⟨1, 1, [⟨10, 20, 40, 255⟩]⟩ rfl (by decide)
  have h3 := (h2 ⟨10, 20, 40, 255⟩ (List.mem_singleton.2 rfl)).2.2.2.1 (by decide)
  have h4 : weightedSum (FpEnv.ieee 0) 10 20 40 = 19 := h3
  rw [h1]
  simp only [List.map_cons, List.map_nil, h4]

/-- C5 (counterexample). The 1x1 image whose only pixel is the gray (13, 13, 13, 255): the
exact weighted sum is 13 and `(2126 * 13 + 7152 * 13 + 722 * 13) / 10000 = 13`, but the
binary64 evaluation gives `13 - 2 ^ (-49)` and `greyImageWeightedSum` writes (12, 12, 12, 255). -/
theorem greyImageWeightedSum_below_floor :
    (greyImageWeightedSum (FpEnv.ieee 0) (loaded ⟨1, 1, [⟨13, 13, 13, 255⟩]⟩)).2.surface
        = some ⟨1, 1, [⟨12, 12, 12, 255⟩]⟩
      ∧ (2126 * 13 + 7152 * 13 + 722 * 13) / 10000 = 13 := by
  refine ⟨?_, by decide⟩
  rw [greyImageWeightedSum_eq (FpEnv.ieee 0) (loaded ⟨1, 1, [⟨13, 13, 13, 255⟩]⟩)
    ⟨1, 1, [⟨13, 13, 13, 255⟩]⟩ rfl (by decide)]
  simp only [List.map_cons, List.map_nil, weightedSum_13]

end HistEq
